import Mathlib

/-!
Verification of the qlf_fasm FASM assembler / disassembler
(src/qlf_fasm/qlf_fasm.py).

Python strings are modelled as `List Char`; Python dicts (which preserve
insertion order) are modelled as association lists; the mutable `bytearray`
bitstream is modelled as `List Bool`; the mutable `features_by_bits`
dict-of-sets is modelled as a total function `Nat → List (List Char)` whose
default value `[]` is observationally identical to an absent key (the code
only ever tests membership of a key in the set at an address and inserts).

All definitions are structurally recursive so that they evaluate by
`decide` / `rfl` on concrete inputs.
-/

set_option autoImplicit false

/-- Convert a Lean string literal to the `List Char` representation used
throughout this development. -/
def strL (s : String) : List Char := s.data

/-- The constant first path segment required of every feature
(`parts[0] != "fpga_top"` check in `process_fasm_line`). -/
def fpgaTop : List Char := strL "fpga_top"

/-- The `"grid_"` prefix that marks a tile (block) feature in
`process_fasm_line`. -/
def gridPat : List Char := ['g', 'r', 'i', 'd', '_']

/-- Model of Python `str.split(sep)` for a one-character separator, as used
by `set_feature.feature.split(".")`.  Like Python, splitting the empty
string yields `[""]` and separators at the ends yield empty pieces. -/
def splitOnChar (c : Char) : List Char → List (List Char)
  | [] => [[]]
  | x :: xs =>
    match splitOnChar c xs with
    | [] => [[x]]
    | h :: t => if x = c then [] :: h :: t else (x :: h) :: t

/-- Model of Python `sep.join(pieces)` for a one-character separator, as
used by `".".join(base_name[2:])`. -/
def joinSep (c : Char) : List (List Char) → List Char
  | [] => []
  | [s] => s
  | s :: rest => s ++ c :: joinSep c rest

theorem splitOnChar_ne_nil (c : Char) (s : List Char) : splitOnChar c s ≠ [] := by
  cases s with
  | nil => simp [splitOnChar]
  | cons x xs =>
    simp only [splitOnChar]
    cases h : splitOnChar c xs with
    | nil => simp
    | cons h' t => by_cases hx : x = c <;> simp [hx]

theorem joinSep_splitOnChar (c : Char) (s : List Char) :
    joinSep c (splitOnChar c s) = s := by
  induction s with
  | nil => rfl
  | cons x xs ih =>
    simp only [splitOnChar]
    match h : splitOnChar c xs with
    | [] => exact absurd h (splitOnChar_ne_nil c xs)
    | h' :: t =>
      rw [h] at ih
      by_cases hx : x = c
      · simp only [hx, if_pos rfl, joinSep]
        cases t <;> simp_all [joinSep]
      · simp only [if_neg hx]
        cases t <;> simp_all [joinSep]

/-- `noChar c s`: the character `c` does not occur in `s`. -/
def noChar (c : Char) (s : List Char) : Bool := s.all (fun x => x ≠ c)

theorem splitOnChar_append (c : Char) (a b : List Char) (ha : noChar c a = true) :
    splitOnChar c (a ++ c :: b) = a :: splitOnChar c b := by
  induction a with
  | nil =>
    simp only [List.nil_append, splitOnChar]
    match h : splitOnChar c b with
    | [] => exact absurd h (splitOnChar_ne_nil c b)
    | h' :: t => simp
  | cons x xs ih =>
    simp only [noChar, List.all_cons, Bool.and_eq_true, decide_eq_true_eq] at ha
    have ih' := ih (by simp only [noChar]; exact ha.2)
    simp only [List.cons_append, splitOnChar, List.append_eq]
    rw [ih']
    simp [ha.1]

/-- Remove the occurrences of `"grid_"` from a string, scanning left to
right without overlap: the model of Python `name.replace("grid_", "")` in
`process_fasm_line` (which removes every occurrence, not only a leading
one). -/
def replaceGrid : List Char → List Char
  | 'g' :: 'r' :: 'i' :: 'd' :: '_' :: rest => replaceGrid rest
  | c :: rest => c :: replaceGrid rest
  | [] => []

theorem replaceGrid_grid (t : List Char) : replaceGrid (gridPat ++ t) = replaceGrid t := rfl

/-- `noGridSub s`: no occurrence of `"grid_"` starts anywhere in `s`. -/
def noGridSub : List Char → Bool
  | [] => true
  | c :: rest => (!gridPat.isPrefixOf (c :: rest)) && noGridSub rest

theorem replaceGrid_cons (c : Char) (rest : List Char)
    (h : gridPat.isPrefixOf (c :: rest) = false) :
    replaceGrid (c :: rest) = c :: replaceGrid rest := by
  apply replaceGrid.eq_2
  intro rest1 hc hr
  subst hc
  subst hr
  simp [gridPat, List.isPrefixOf] at h

theorem replaceGrid_of_noGridSub (t : List Char) (h : noGridSub t = true) :
    replaceGrid t = t := by
  induction t with
  | nil => rfl
  | cons c rest ih =>
    simp only [noGridSub, Bool.and_eq_true, Bool.not_eq_true'] at h
    rw [replaceGrid_cons c rest h.1, ih h.2]

/-! ### Digits and number formatting/parsing -/

/-- A decimal digit character, as matched by the `[0-9]` groups of
`QlfFasmAssembler.LOC_RE`. -/
def isDig (c : Char) : Bool := decide ('0' ≤ c) && decide (c ≤ '9')

/-- The decimal digit character for `n < 10` (used to model Python
`"{}".format(n)` / `str(n)`). -/
def digitChar : Nat → Char
  | 0 => '0' | 1 => '1' | 2 => '2' | 3 => '3' | 4 => '4'
  | 5 => '5' | 6 => '6' | 7 => '7' | 8 => '8' | _ => '9'

/-- Numeric value of a digit character (`ord(c) - ord('0')`). -/
def digitVal (c : Char) : Nat := c.toNat - 48

/-- Model of Python `int(s)` on an all-digit string, as applied to the
groups of `LOC_RE`. -/
def digitsToNat (ds : List Char) : Nat := ds.foldl (fun a c => 10 * a + digitVal c) 0

/-- `natDigitsAux fuel n` renders `n` in decimal; `fuel` bounds the
recursion depth so the definition stays structural. -/
def natDigitsAux : Nat → Nat → List Char
  | 0, _ => []
  | fuel + 1, n => if n < 10 then [digitChar n] else natDigitsAux fuel (n / 10) ++ [digitChar (n % 10)]

/-- Decimal rendering of a natural number: the model of Python
`"{}".format(n)` used when the disassembler builds feature prefixes. -/
def natDigits (n : Nat) : List Char := natDigitsAux (n + 1) n

theorem digitChar_isDig (n : Nat) (h : n < 10) : isDig (digitChar n) = true := by
  interval_cases n <;> decide

theorem digitVal_digitChar (n : Nat) (h : n < 10) : digitVal (digitChar n) = n := by
  interval_cases n <;> decide

theorem digitsToNat_append_singleton (ds : List Char) (c : Char) :
    digitsToNat (ds ++ [c]) = 10 * digitsToNat ds + digitVal c := by
  simp [digitsToNat, List.foldl_append]

theorem natDigitsAux_spec (fuel : Nat) : ∀ n : Nat, n < fuel →
    natDigitsAux fuel n ≠ [] ∧ (natDigitsAux fuel n).all isDig = true ∧
      digitsToNat (natDigitsAux fuel n) = n := by
  induction fuel with
  | zero => intro n h; omega
  | succ fuel ih =>
    intro n h
    by_cases h10 : n < 10
    · refine ⟨by simp [natDigitsAux, h10], ?_, ?_⟩
      · simp [natDigitsAux, h10, digitChar_isDig n h10]
      · simp [natDigitsAux, h10, digitsToNat, digitVal_digitChar n h10]
    · have hdiv : n / 10 < fuel := by omega
      obtain ⟨h1, h2, h3⟩ := ih (n / 10) hdiv
      refine ⟨by simp [natDigitsAux, h10], ?_, ?_⟩
      · simp only [natDigitsAux, if_neg h10, List.all_append, Bool.and_eq_true]
        exact ⟨h2, by simp [digitChar_isDig (n % 10) (Nat.mod_lt n (by omega))]⟩
      · simp only [natDigitsAux, if_neg h10]
        rw [digitsToNat_append_singleton, h3,
          digitVal_digitChar (n % 10) (Nat.mod_lt n (by omega))]
        omega

theorem natDigits_ne_nil (n : Nat) : natDigits n ≠ [] :=
  (natDigitsAux_spec (n + 1) n (by omega)).1

theorem natDigits_all_isDig (n : Nat) : (natDigits n).all isDig = true :=
  (natDigitsAux_spec (n + 1) n (by omega)).2.1

theorem digitsToNat_natDigits (n : Nat) : digitsToNat (natDigits n) = n :=
  (natDigitsAux_spec (n + 1) n (by omega)).2.2

theorem isDig_ne_underscore {c : Char} (h : isDig c = true) : c ≠ '_' := by
  intro hc; subst hc; simp [isDig] at h

theorem isDig_ne_dot {c : Char} (h : isDig c = true) : c ≠ '.' := by
  intro hc; subst hc; simp [isDig] at h

/-! ### The `LOC_RE` location regex

`LOC_RE = re.compile(r"(?P<name>.+)_(?P<x>[0-9]+)__(?P<y>[0-9]+)_$")`,
used with `fullmatch` on the second path segment.  `matchLocSuffix`
recognises the `_<x>__<y>_` tail (with maximal digit groups, exactly as
the regex engine must match them, since `__` cannot begin inside a digit
group); `locMatch` implements the greedy `.+` by trying the longest
possible `name` first. -/

def matchLocSuffix : List Char → Option (List Char × List Char)
  | '_' :: rest =>
    let xs := rest.takeWhile isDig
    if xs = [] then none
    else
      match rest.dropWhile isDig with
      | '_' :: '_' :: rest2 =>
        let ys := rest2.takeWhile isDig
        if ys = [] then none
        else
          match rest2.dropWhile isDig with
          | ['_'] => some (xs, ys)
          | _ => none
      | _ => none
  | _ => none

def locMatchAux (s : List Char) : Nat → Option (List Char × List Char × List Char)
  | 0 => none
  | k + 1 =>
    match matchLocSuffix (s.drop (k + 1)) with
    | some (xs, ys) => some (s.take (k + 1), xs, ys)
    | none => locMatchAux s k

/-- Model of `LOC_RE.fullmatch(parts[1])`: returns `(name, x-digits,
y-digits)` for the greedy (longest-`name`) match, or `none`. -/
def locMatch (s : List Char) : Option (List Char × List Char × List Char) :=
  locMatchAux s (s.length - 1)

theorem takeWhile_append_stop (p : Char → Bool) (l : List Char) (c : Char) (t : List Char)
    (hl : l.all p = true) (hc : p c = false) : (l ++ c :: t).takeWhile p = l := by
  induction l with
  | nil => simp [List.takeWhile_cons, hc]
  | cons x xs ih =>
    simp only [List.all_cons, Bool.and_eq_true] at hl
    simp [List.takeWhile_cons, hl.1, ih hl.2]

theorem dropWhile_append_stop (p : Char → Bool) (l : List Char) (c : Char) (t : List Char)
    (hl : l.all p = true) (hc : p c = false) : (l ++ c :: t).dropWhile p = c :: t := by
  induction l with
  | nil => simp [List.dropWhile_cons, hc]
  | cons x xs ih =>
    simp only [List.all_cons, Bool.and_eq_true] at hl
    simp [List.dropWhile_cons, hl.1, ih hl.2]

theorem matchLocSuffix_cons_ne (c : Char) (t : List Char) (h : c ≠ '_') :
    matchLocSuffix (c :: t) = none := by
  apply matchLocSuffix.eq_2
  intro rest hc
  exact absurd (by injection hc) h

theorem matchLocSuffix_canonical (dx dy : List Char) (hdx : dx ≠ []) (hdy : dy ≠ [])
    (hax : dx.all isDig = true) (hay : dy.all isDig = true) :
    matchLocSuffix ('_' :: (dx ++ '_' :: '_' :: (dy ++ ['_']))) = some (dx, dy) := by
  simp only [matchLocSuffix]
  rw [takeWhile_append_stop isDig dx '_' ('_' :: (dy ++ ['_'])) hax (by decide),
      dropWhile_append_stop isDig dx '_' ('_' :: (dy ++ ['_'])) hax (by decide)]
  simp only [if_neg hdx]
  rw [takeWhile_append_stop isDig dy '_' [] hay (by decide),
      dropWhile_append_stop isDig dy '_' [] hay (by decide)]
  simp only [if_neg hdy]

theorem matchLocSuffix_digits_underscore_none (dy : List Char) (hay : dy.all isDig = true) :
    ∀ j : Nat, matchLocSuffix ((dy ++ ['_']).drop j) = none := by
  induction dy with
  | nil =>
    intro j
    match j with
    | 0 =>
      simp only [List.nil_append, List.drop_zero]
      simp [matchLocSuffix]
    | j + 1 => simp [matchLocSuffix]
  | cons d dy' ih =>
    simp only [List.all_cons, Bool.and_eq_true] at hay
    intro j
    match j with
    | 0 =>
      simp only [List.drop_zero, List.cons_append]
      exact matchLocSuffix_cons_ne d (dy' ++ ['_']) (isDig_ne_underscore hay.1)
    | j + 1 =>
      simp only [List.cons_append, List.drop_succ_cons]
      exact ih hay.2 j

theorem matchLocSuffix_one_underscore_none (dy : List Char) (hay : dy.all isDig = true) :
    ∀ j : Nat, matchLocSuffix (('_' :: (dy ++ ['_'])).drop j) = none := by
  intro j
  match j with
  | 0 =>
    simp only [List.drop_zero]
    simp only [matchLocSuffix]
    rw [takeWhile_append_stop isDig dy '_' [] hay (by decide),
        dropWhile_append_stop isDig dy '_' [] hay (by decide)]
    cases dy with
    | nil => simp
    | cons d dy' => simp
  | j + 1 =>
    simp only [List.drop_succ_cons]
    exact matchLocSuffix_digits_underscore_none dy hay j

theorem matchLocSuffix_two_underscore_none (dy : List Char) (hay : dy.all isDig = true) :
    ∀ j : Nat, matchLocSuffix (('_' :: '_' :: (dy ++ ['_'])).drop j) = none := by
  intro j
  match j with
  | 0 =>
    simp only [List.drop_zero]
    simp only [matchLocSuffix]
    have : List.takeWhile isDig ('_' :: (dy ++ ['_'])) = [] := by
      simp [List.takeWhile_cons, show isDig '_' = false from by decide]
    rw [this]
    simp
  | j + 1 =>
    simp only [List.drop_succ_cons]
    exact matchLocSuffix_one_underscore_none dy hay j

theorem matchLocSuffix_inner_none (dx dy : List Char) (hax : dx.all isDig = true)
    (hay : dy.all isDig = true) :
    ∀ j : Nat, matchLocSuffix ((dx ++ '_' :: '_' :: (dy ++ ['_'])).drop j) = none := by
  induction dx with
  | nil =>
    intro j
    simpa using matchLocSuffix_two_underscore_none dy hay j
  | cons d dx' ih =>
    simp only [List.all_cons, Bool.and_eq_true] at hax
    intro j
    match j with
    | 0 =>
      simp only [List.drop_zero, List.cons_append]
      exact matchLocSuffix_cons_ne d _ (isDig_ne_underscore hax.1)
    | j + 1 =>
      simp only [List.cons_append, List.drop_succ_cons]
      exact ih hax.2 j

theorem drop_append_len_add {α : Type} (l r : List α) (k : Nat) :
    (l ++ r).drop (l.length + k) = r.drop k := by
  induction l with
  | nil => simp
  | cons x xs ih => simpa [Nat.succ_add] using ih

theorem take_append_len {α : Type} (l r : List α) : (l ++ r).take l.length = l := by
  induction l with
  | nil => simp
  | cons x xs ih => simp [ih]

theorem drop_append_len {α : Type} (l r : List α) : (l ++ r).drop l.length = r := by
  simpa using drop_append_len_add l r 0

/-- The canonical location suffix `_<x>__<y>_` appended to any nonempty
name is matched greedily by `locMatch`, recovering exactly the name and
the two digit groups. -/
theorem locMatchAux_canonical (nm dx dy : List Char) (hnm : nm ≠ [])
    (hdx : dx ≠ []) (hdy : dy ≠ []) (hax : dx.all isDig = true) (hay : dy.all isDig = true) :
    ∀ t : Nat,
      locMatchAux (nm ++ '_' :: (dx ++ '_' :: '_' :: (dy ++ ['_']))) (nm.length + t) =
        some (nm, dx, dy) := by
  obtain ⟨m, hm⟩ : ∃ m, nm.length = m + 1 := by
    cases nm with
    | nil => exact absurd rfl hnm
    | cons a l => exact ⟨l.length, rfl⟩
  intro t
  induction t with
  | zero =>
    simp only [Nat.add_zero, hm, locMatchAux]
    rw [show m + 1 = nm.length from hm.symm, drop_append_len nm _]
    rw [matchLocSuffix_canonical dx dy hdx hdy hax hay]
    rw [take_append_len nm _]
  | succ t ih =>
    have hstep : nm.length + (t + 1) = (nm.length + t) + 1 := by omega
    rw [hstep]
    simp only [locMatchAux]
    rw [show nm.length + t + 1 = nm.length + (t + 1) from by omega,
        drop_append_len_add nm _ (t + 1), List.drop_succ_cons]
    rw [matchLocSuffix_inner_none dx dy hax hay t]
    exact ih

theorem locMatch_canonical (nm dx dy : List Char) (hnm : nm ≠ [])
    (hdx : dx ≠ []) (hdy : dy ≠ []) (hax : dx.all isDig = true) (hay : dy.all isDig = true) :
    locMatch (nm ++ '_' :: (dx ++ '_' :: '_' :: (dy ++ ['_']))) = some (nm, dx, dy) := by
  have hlen : (nm ++ '_' :: (dx ++ '_' :: '_' :: (dy ++ ['_']))).length =
      nm.length + (dx.length + dy.length + 4) := by
    simp
    omega
  have : (nm ++ '_' :: (dx ++ '_' :: '_' :: (dy ++ ['_']))).length - 1 =
      nm.length + (dx.length + dy.length + 3) := by
    rw [hlen]; omega
  rw [locMatch, this]
  exact locMatchAux_canonical nm dx dy hnm hdx hdy hax hay (dx.length + dy.length + 3)

/-- The canonical location component built by the disassembler:
`name_<x>__<y>_` with the coordinates rendered in decimal. -/
def locComponent (nm : List Char) (x y : Nat) : List Char :=
  nm ++ '_' :: (natDigits x ++ '_' :: '_' :: (natDigits y ++ ['_']))

theorem locMatch_locComponent (nm : List Char) (x y : Nat) (hnm : nm ≠ []) :
    locMatch (locComponent nm x y) = some (nm, natDigits x, natDigits y) :=
  locMatch_canonical nm (natDigits x) (natDigits y) hnm (natDigits_ne_nil x)
    (natDigits_ne_nil y) (natDigits_all_isDig x) (natDigits_all_isDig y)

/-! ### Data model (`Database` and friends, qlf_fasm.py lines 19-171)

Database invariants established by `Database.load` (duplicate keys are
`assert`-rejected, dicts preserve insertion order) are carried as explicit
hypotheses where theorems need them. -/

/-- A single segbit: `Bit(index, value)` (qlf_fasm.py line 19). -/
structure Bit where
  idx : Nat
  val : Bool
deriving DecidableEq

/-- A segbit pattern: the tuple of `Bit`s stored for one feature name by
`Database.load_segbits`. -/
abbrev SegbitPattern := List Bit

/-- One segbit table: feature name → pattern, a dict in the source. -/
abbrev SegbitTable := List (List Char × SegbitPattern)

/-- A tile record: the `{type, region, offset}` dict stored in
`Database.tiles` (qlf_fasm.py lines 104-112). -/
structure Tile where
  type : List Char
  region : Nat
  offset : Nat
deriving DecidableEq

/-- A routing record: the `{type, variant, region, offset}` dict stored in
`Database.routing[loc]` (qlf_fasm.py lines 122-133). -/
structure Sbox where
  type : List Char
  variant : List Char
  region : Nat
  offset : Nat
deriving DecidableEq

/-- A bitstream region (scan chain): the `{id, offset, length}` dicts of
`configuration["regions"]`; the `id` is the dict key in
`Database.regions`. -/
structure Region where
  offset : Nat
  length : Nat
deriving DecidableEq

/-- The loaded FASM database (qlf_fasm.py class `Database`). -/
structure Database where
  tiles : List ((Nat × Nat) × Tile)
  routing : List ((Nat × Nat) × List (List Char × Sbox))
  segbits : List (List Char × SegbitTable)
  bitstream_size : Nat
  regions : List (Nat × Region)

/-- Association-list lookup, the model of a Python dict subscript /
`in` test.  Python dict keys are unique, so the first match is the only
match. -/
def alookup {α β : Type} [DecidableEq α] (k : α) : List (α × β) → Option β
  | [] => none
  | p :: rest => if p.1 = k then some p.2 else alookup k rest

theorem alookup_mem {α β : Type} [DecidableEq α] (k : α) (l : List (α × β)) (v : β)
    (h : alookup k l = some v) : (k, v) ∈ l := by
  induction l with
  | nil => simp [alookup] at h
  | cons p rest ih =>
    simp only [alookup] at h
    by_cases hp : p.1 = k
    · rw [if_pos hp] at h
      have hkv : (k, v) = p := by cases p; simp_all
      rw [hkv]
      exact List.mem_cons_self p rest
    · rw [if_neg hp] at h
      exact List.mem_cons_of_mem p (ih h)

/-! ### FASM statements

Parsing of the FASM text and `fasm.canonical_features` belong to the
external `fasm` library (spec section 6: the canonicalization collaborator
is injectable).  A `SetFeature` therefore carries, besides the feature
path string and the value that `process_fasm_line` inspects, the list of
canonical single-bit features the collaborator yields for it. -/

/-- One canonical (single-bit) feature produced by
`fasm.canonical_features`: a feature path, an optional bit index
(`start`) and a value. -/
structure OneFeature where
  feature : List Char
  start : Option Nat
  value : Nat
deriving DecidableEq

/-- Modelled from the spec: the `set_feature` of a parsed FASM line
(external `fasm` library).  `canonical` is the finite sequence of
single-bit features that `fasm.canonical_features(set_feature)`
yields (spec section 6). -/
structure SetFeature where
  feature : List Char
  value : Nat
  canonical : List OneFeature
deriving DecidableEq

/-- A parsed FASM line; `set_feature` is `None` for annotation-only
lines. -/
structure FasmLine where
  set_feature : Option SetFeature
deriving DecidableEq

/-! ### Assembler (`QlfFasmAssembler`, qlf_fasm.py lines 176-352) -/

/-- Errors the assembler can raise.  `lookupError` and `featureConflict`
model the two exception classes of `QlfFasmAssembler`; `attributeError`,
`assertionError` and `keyError` model the built-in Python exceptions the
code can raise (which `assemble_bitstream` re-raises via its bare
`except`). -/
inductive AsmError
  | lookupError
  | featureConflict
  | attributeError
  | assertionError
  | keyError
deriving DecidableEq

/-- Assembler state: the `bytearray` bitstream plus the
`features_by_bits` provenance map (address → set of feature keys that
wrote it). -/
structure AssemblerState where
  bitstream : List Bool
  features_by_bits : Nat → List (List Char)

/-- `QlfFasmAssembler.__init__`: an all-zero bitstream of
`database.bitstream_size` bits and an empty provenance map. -/
def init_state (db : Database) : AssemblerState :=
  { bitstream := List.replicate db.bitstream_size false
    features_by_bits := fun _ => [] }

/-- Apply a single pattern bit to the bitstream (the body of the
`for bit in bits` loop, qlf_fasm.py lines 305-330).

When the conflict condition holds the source builds the error message
with `bit.id`; `Bit` has only the attributes `idx` and `val`, so that
expression raises `AttributeError` before `FeatureConflict(msg)` is ever
raised.  The conflict branch therefore produces `attributeError`. -/
def apply_bit (key : List Char) (offset : Nat) (st : AssemblerState) (bit : Bit) :
    AssemblerState × Option AsmError :=
  let address := bit.idx + offset
  if key ∈ st.features_by_bits address ∧ bit.val ≠ st.bitstream.getD address false then
    (st, some .attributeError)
  else
    ({ bitstream := st.bitstream.set address bit.val
       features_by_bits := fun a =>
         if a = address then key :: st.features_by_bits a else st.features_by_bits a },
     none)

/-- The `for bit in bits` loop: apply pattern bits in order, stopping at
the first raised error but keeping all mutations made so far (the Python
object is mutated in place). -/
def apply_bits (key : List Char) (offset : Nat) :
    AssemblerState → List Bit → AssemblerState × Option AsmError
  | st, [] => (st, none)
  | st, bit :: rest =>
    match apply_bit key offset st bit with
    | (st', none) => apply_bits key offset st' rest
    | (st', some e) => (st', some e)

/-- The base feature name of a canonical feature: the path segments after
the first two, re-joined with dots
(`".".join(one_feature.feature.split(".")[2:])`). -/
def feature_base_name (f : OneFeature) : List Char :=
  joinSep '.' ((splitOnChar '.' f.feature).drop 2)

/-- The two-step single-bit feature lookup of qlf_fasm.py lines 281-296:
try the bare base name when `start` is `0` or `None`; on a miss (or a
nonzero index) try `"{base}[{idx}]"` with the index defaulting to 0.
Returns the key that resolved together with its pattern. -/
def lookup_feature_bits (segbits : SegbitTable) (base_name : List Char)
    (start : Option Nat) : Option (List Char × SegbitPattern) :=
  let first :=
    if start = some 0 ∨ start = none then
      match alookup base_name segbits with
      | some bits => some (base_name, bits)
      | none => none
    else none
  match first with
  | some r => some r
  | none =>
    let idx := start.getD 0
    let key := base_name ++ '[' :: (natDigits idx ++ [']'])
    match alookup key segbits with
    | some bits => some (key, bits)
    | none => none

/-- Process one canonical feature (the body of the
`for one_feature in fasm.canonical_features(...)` loop, qlf_fasm.py
lines 270-330).  A feature whose resolved pattern is empty only logs an
error in the source and continues. -/
def process_one_feature (segbits : SegbitTable) (offset : Nat)
    (st : AssemblerState) (f : OneFeature) : AssemblerState × Option AsmError :=
  if f.value ≠ 0 ∧ f.value ≠ 1 then (st, some .assertionError)
  else if f.value = 0 then (st, none)
  else
    match lookup_feature_bits segbits (feature_base_name f) f.start with
    | none => (st, some .lookupError)
    | some (key, bits) => apply_bits key offset st bits

/-- The canonical-features loop, stopping at the first error. -/
def process_features (segbits : SegbitTable) (offset : Nat) :
    AssemblerState → List OneFeature → AssemblerState × Option AsmError
  | st, [] => (st, none)
  | st, f :: rest =>
    match process_one_feature segbits offset st f with
    | (st', none) => process_features segbits offset st' rest
    | (st', some e) => (st', some e)

/-- Resolve a feature path to its segbit table and base bit offset
(qlf_fasm.py lines 216-266).  A missing region id would raise `KeyError`
in `self.database.regions[region]`, modelled by `keyError`. -/
def resolve_path (db : Database) (feature : List Char) :
    Except AsmError (SegbitTable × Nat) :=
  let parts := splitOnChar '.' feature
  if parts.length < 3 ∨ parts.headD [] ≠ fpgaTop then .error .lookupError
  else
    match locMatch (parts.getD 1 []) with
    | none => .error .lookupError
    | some (nm, xs, ys) =>
      let loc := (digitsToNat xs, digitsToNat ys)
      if gridPat.isPrefixOf nm then
        let name := replaceGrid nm
        match alookup loc db.tiles with
        | none => .error .lookupError
        | some tile =>
          match alookup name db.segbits with
          | none => .error .lookupError
          | some segbits =>
            match alookup tile.region db.regions with
            | none => .error .keyError
            | some reg => .ok (segbits, tile.offset + reg.offset)
      else
        let name := nm.takeWhile (fun c => c ≠ '_')
        match alookup loc db.routing with
        | none => .error .lookupError
        | some rmap =>
          match alookup name rmap with
          | none => .error .lookupError
          | some sbox =>
            match alookup (name ++ '_' :: sbox.variant) db.segbits with
            | none => .error .lookupError
            | some segbits =>
              match alookup sbox.region db.regions with
              | none => .error .keyError
              | some reg => .ok (segbits, sbox.offset + reg.offset)

/-- `QlfFasmAssembler.process_fasm_line`.  Returns the (possibly
partially) mutated state together with the error raised, if any: the
Python method mutates `self` in place, so writes made before an exception
persist. -/
def process_fasm_line (db : Database) (st : AssemblerState) (line : FasmLine) :
    AssemblerState × Option AsmError :=
  match line.set_feature with
  | none => (st, none)
  | some set_feature =>
    if set_feature.value = 0 then (st, none)
    else
      match resolve_path db set_feature.feature with
      | .error e => (st, some e)
      | .ok (segbits, offset) => process_features segbits offset st set_feature.canonical

/-- `QlfFasmAssembler.assemble_bitstream`: process every line, collecting
lines that raised `LookupError` into `unknown_features` and re-raising
any other exception. -/
def assemble_loop (db : Database) :
    List FasmLine → AssemblerState → List FasmLine →
      Except AsmError (AssemblerState × List FasmLine)
  | [], st, unknown => .ok (st, unknown)
  | line :: rest, st, unknown =>
    match process_fasm_line db st line with
    | (st', none) => assemble_loop db rest st' unknown
    | (st', some .lookupError) => assemble_loop db rest st' (unknown ++ [line])
    | (_, some e) => .error e

/-- Assemble a list of FASM lines starting from the freshly initialized
assembler, returning the final state and the unknown features. -/
def assemble_bitstream (db : Database) (fasm_lines : List FasmLine) :
    Except AsmError (AssemblerState × List FasmLine) :=
  assemble_loop db fasm_lines (init_state db) []

/-! ### Disassembler (`QlfFasmDisassembler`, qlf_fasm.py lines 357-462) -/

/-- Errors the disassembler can raise: the `assert` statements (bitstream
size, segbit table presence, pattern address bounds) and the `KeyError`
a missing region id would raise. -/
inductive DisError
  | assertionError
  | keyError
deriving DecidableEq

/-- `QlfFasmDisassembler.match_segbits`: walk the pattern, breaking at the
first mismatching bit; each visited bit's address is `assert`ed to be in
range (modelled by `none`). -/
def match_segbits (bitstream : List Bool) (offset : Nat) :
    SegbitPattern → Option Bool
  | [] => some true
  | segbit :: rest =>
    let address := segbit.idx + offset
    if address < bitstream.length then
      if bitstream.getD address false ≠ segbit.val then some false
      else match_segbits bitstream offset rest
    else none

/-- The apostrophe character of the `=1'bN` suffix. -/
def squote : Char := Char.ofNat 39

/-- The `=1'bN` suffix appended by `emit_feature` when `emit_unset` is
set. -/
def emitSuffix (value : Bool) : List Char :=
  '=' :: '1' :: squote :: 'b' :: [if value then '1' else '0']

/-- The `for feature, bits in segbits.items()` loop shared by the tile
and routing halves of `disassemble_bitstream`: match every pattern of one
table, emitting matched features (or, with `emit_unset`, every feature
with its value suffix). -/
def disassemble_table (bs : List Bool) (pfx : List Char) (offset : Nat)
    (emit_unset : Bool) : SegbitTable → Except DisError (List (List Char))
  | [] => .ok []
  | (feature, bits) :: rest =>
    match match_segbits bs offset bits with
    | none => .error .assertionError
    | some value =>
      if value = false ∧ emit_unset = false then
        disassemble_table bs pfx offset emit_unset rest
      else
        let full_name := pfx ++ '.' :: feature
        let emitted := if emit_unset then full_name ++ emitSuffix value else full_name
        (disassemble_table bs pfx offset emit_unset rest).map (fun fs => emitted :: fs)

/-- The feature prefix `"fpga_top.grid_{type}_{x}__{y}_"` formatted for a
tile. -/
def tile_pfx (tile : Tile) (loc : Nat × Nat) : List Char :=
  strL "fpga_top.grid_" ++ tile.type ++ '_' :: (natDigits loc.1 ++ '_' :: '_' :: (natDigits loc.2 ++ ['_']))

/-- The feature prefix `"fpga_top.{type}_{x}__{y}_"` formatted for a
routing resource. -/
def sbox_pfx (sbox : Sbox) (loc : Nat × Nat) : List Char :=
  strL "fpga_top." ++ sbox.type ++ '_' :: (natDigits loc.1 ++ '_' :: '_' :: (natDigits loc.2 ++ ['_']))

/-- The `for loc, tile in self.database.tiles.items()` loop of
`disassemble_bitstream`. -/
def disassemble_tiles (db : Database) (bs : List Bool) (emit_unset : Bool) :
    List ((Nat × Nat) × Tile) → Except DisError (List (List Char))
  | [] => .ok []
  | (loc, tile) :: rest =>
    match alookup tile.type db.segbits with
    | none => .error .assertionError
    | some segbits =>
      match alookup tile.region db.regions with
      | none => .error .keyError
      | some reg =>
        match disassemble_table bs (tile_pfx tile loc) (tile.offset + reg.offset)
            emit_unset segbits with
        | .error e => .error e
        | .ok fs => (disassemble_tiles db bs emit_unset rest).map (fun r => fs ++ r)

/-- The inner `for sbox_type, sbox in routing.items()` loop of the routing
half of `disassemble_bitstream`. -/
def disassemble_sboxes (db : Database) (bs : List Bool) (emit_unset : Bool)
    (loc : Nat × Nat) : List (List Char × Sbox) → Except DisError (List (List Char))
  | [] => .ok []
  | (_, sbox) :: rest =>
    match alookup (sbox.type ++ '_' :: sbox.variant) db.segbits with
    | none => .error .assertionError
    | some segbits =>
      match alookup sbox.region db.regions with
      | none => .error .keyError
      | some reg =>
        match disassemble_table bs (sbox_pfx sbox loc) (sbox.offset + reg.offset)
            emit_unset segbits with
        | .error e => .error e
        | .ok fs => (disassemble_sboxes db bs emit_unset loc rest).map (fun r => fs ++ r)

/-- The outer `for loc, routing in self.database.routing.items()` loop. -/
def disassemble_routing (db : Database) (bs : List Bool) (emit_unset : Bool) :
    List ((Nat × Nat) × List (List Char × Sbox)) → Except DisError (List (List Char))
  | [] => .ok []
  | (loc, rmap) :: rest =>
    match disassemble_sboxes db bs emit_unset loc rmap with
    | .error e => .error e
    | .ok fs => (disassemble_routing db bs emit_unset rest).map (fun r => fs ++ r)

/-- `QlfFasmDisassembler.disassemble_bitstream`: check the bitstream
length, then walk every tile and every routing entry. -/
def disassemble_bitstream (db : Database) (bitstream : List Bool)
    (emit_unset : Bool) : Except DisError (List (List Char)) :=
  if bitstream.length ≠ db.bitstream_size then .error .assertionError
  else
    match disassemble_tiles db bitstream emit_unset db.tiles with
    | .error e => .error e
    | .ok t =>
      match disassemble_routing db bitstream emit_unset db.routing with
      | .error e => .error e
      | .ok r => .ok (t ++ r)

/-! ### Specification-level view of the disassembler output -/

/-- Whether a pattern matches the bitstream at an offset: every bit reads
its required value (spec section 4.4, `matchPattern`). -/
def pattern_matches (bs : List Bool) (bits : SegbitPattern) (offset : Nat) : Bool :=
  bits.all (fun b => bs.getD (b.idx + offset) false = b.val)

/-- The matched feature paths contributed by one tile. -/
def tile_paths (db : Database) (bs : List Bool) (p : (Nat × Nat) × Tile) :
    List (List Char) :=
  let tbl := (alookup p.2.type db.segbits).getD []
  let reg := (alookup p.2.region db.regions).getD ⟨0, 0⟩
  tbl.filterMap fun q =>
    if pattern_matches bs q.2 (p.2.offset + reg.offset) then
      some (tile_pfx p.2 p.1 ++ '.' :: q.1)
    else none

/-- The matched feature paths contributed by one routing entry. -/
def sbox_paths (db : Database) (bs : List Bool) (loc : Nat × Nat)
    (q : List Char × Sbox) : List (List Char) :=
  let tbl := (alookup (q.2.type ++ '_' :: q.2.variant) db.segbits).getD []
  let reg := (alookup q.2.region db.regions).getD ⟨0, 0⟩
  tbl.filterMap fun r =>
    if pattern_matches bs r.2 (q.2.offset + reg.offset) then
      some (sbox_pfx q.2 loc ++ '.' :: r.1)
    else none

/-- All feature paths whose patterns match the bitstream, in database
iteration order: the specification-level description of the
disassembler's `emit_unset = false` output. -/
def matchedPaths (db : Database) (bs : List Bool) : List (List Char) :=
  (db.tiles.map (tile_paths db bs)).flatten ++
    (db.routing.map (fun p => (p.2.map (sbox_paths db bs p.1)).flatten)).flatten

/-! ### Bitstream padding (`fasm_to_bitstream`, qlf_fasm.py lines 490-504) -/

/-- Python slice assignment `dst[d:d+l] = src[s:s+l]` on flat arrays
(including the Python behaviour of clamping the copied slice to the
source's length). -/
def sliceAssign {α : Type} (dst : List α) (d l : Nat) (src : List α) (s : Nat) : List α :=
  dst.take d ++ ((src.drop s).take l ++ dst.drop (d + l))

/-- `max([region["length"] for region in database.regions.values()])`. -/
def max_region_of (regions : List (Nat × Region)) : Nat :=
  (regions.map (fun p => p.2.length)).foldl Nat.max 0

/-- The padding loop of `fasm_to_bitstream`: build an all-zero physical
array of `max_region * len(regions)` bits, then copy each region's
logical slice into its lane. -/
def pad_bitstream (db : Database) (logical : List Bool) : List Bool :=
  let max_region := max_region_of db.regions
  db.regions.foldl
    (fun padded p => sliceAssign padded (p.1 * max_region) p.2.length logical p.2.offset)
    (List.replicate (max_region * db.regions.length) false)

/-! ### List index helpers -/

theorem getD_set_self {α : Type} (l : List α) (i : Nat) (v d : α) (h : i < l.length) :
    (l.set i v).getD i d = v := by
  induction l generalizing i with
  | nil => simp at h
  | cons x xs ih =>
    cases i with
    | zero => simp
    | succ i =>
      simp only [List.set_cons_succ, List.getD_cons_succ]
      exact ih i (by simpa using h)

theorem getD_set_ne {α : Type} (l : List α) (i j : Nat) (v d : α) (h : i ≠ j) :
    (l.set i v).getD j d = l.getD j d := by
  induction l generalizing i j with
  | nil => simp
  | cons x xs ih =>
    cases i with
    | zero =>
      cases j with
      | zero => exact absurd rfl h
      | succ j => simp
    | succ i =>
      cases j with
      | zero => simp
      | succ j =>
        simp only [List.set_cons_succ, List.getD_cons_succ]
        exact ih i j (by omega)

/-! ### Behaviour of `apply_bit` / `apply_bits` -/

/-- When the key has never written the address (or the value agrees), the
bit is written, the key is recorded, and no error is raised. -/
theorem apply_bit_write (key : List Char) (offset : Nat) (st : AssemblerState) (bit : Bit)
    (h : ¬(key ∈ st.features_by_bits (bit.idx + offset) ∧
           bit.val ≠ st.bitstream.getD (bit.idx + offset) false)) :
    apply_bit key offset st bit =
      ({ bitstream := st.bitstream.set (bit.idx + offset) bit.val
         features_by_bits := fun a =>
           if a = bit.idx + offset then key :: st.features_by_bits a
           else st.features_by_bits a }, none) := by
  simp only [apply_bit, if_neg h]

/-- When the same key already wrote the address and the requested value
differs from the stored bit, the conflict branch fires; building the
message evaluates `bit.id`, so the raised error is `AttributeError`. -/
theorem apply_bit_conflict (key : List Char) (offset : Nat) (st : AssemblerState) (bit : Bit)
    (hmem : key ∈ st.features_by_bits (bit.idx + offset))
    (hval : bit.val ≠ st.bitstream.getD (bit.idx + offset) false) :
    apply_bit key offset st bit = (st, some .attributeError) := by
  simp only [apply_bit, if_pos (And.intro hmem hval)]

/-- Full characterization of the pattern-application loop when the
pattern's indices are distinct, every address is in range, and the key is
fresh at every address: no error is raised, every pattern bit is stored,
the key is recorded at every written address, and everything else is
untouched. -/
theorem apply_bits_spec (key : List Char) (offset : Nat) :
    ∀ (bits : List Bit) (st : AssemblerState),
      (bits.map Bit.idx).Nodup →
      (∀ b ∈ bits, b.idx + offset < st.bitstream.length) →
      (∀ b ∈ bits, key ∉ st.features_by_bits (b.idx + offset)) →
      ∃ st', apply_bits key offset st bits = (st', none) ∧
        st'.bitstream.length = st.bitstream.length ∧
        (∀ a : Nat, (∀ b ∈ bits, b.idx + offset ≠ a) →
          st'.bitstream.getD a false = st.bitstream.getD a false ∧
          st'.features_by_bits a = st.features_by_bits a) ∧
        (∀ b ∈ bits, st'.bitstream.getD (b.idx + offset) false = b.val ∧
          st'.features_by_bits (b.idx + offset) =
            key :: st.features_by_bits (b.idx + offset)) := by
  intro bits
  induction bits with
  | nil =>
    intro st _ _ _
    exact ⟨st, rfl, rfl, fun a _ => ⟨rfl, rfl⟩, by simp⟩
  | cons bit rest ih =>
    intro st hnodup hbound hfresh
    simp only [List.map_cons, List.nodup_cons, List.mem_map] at hnodup
    have hbit : apply_bit key offset st bit =
        ({ bitstream := st.bitstream.set (bit.idx + offset) bit.val
           features_by_bits := fun a =>
             if a = bit.idx + offset then key :: st.features_by_bits a
             else st.features_by_bits a }, none) :=
      apply_bit_write key offset st bit
        (fun hc => hfresh bit (List.mem_cons_self bit rest) hc.1)
    set st1 : AssemblerState :=
      { bitstream := st.bitstream.set (bit.idx + offset) bit.val
        features_by_bits := fun a =>
          if a = bit.idx + offset then key :: st.features_by_bits a
          else st.features_by_bits a } with hst1
    have hdist : ∀ b ∈ rest, b.idx + offset ≠ bit.idx + offset := by
      intro b hb heq
      exact hnodup.1 ⟨b, hb, by omega⟩
    have hlen1 : st1.bitstream.length = st.bitstream.length := by
      simp [hst1, List.length_set]
    obtain ⟨st', heq, hlen, huntouched, hwritten⟩ := ih st1 hnodup.2
      (by
        intro b hb
        rw [hlen1]
        exact hbound b (List.mem_cons_of_mem bit hb))
      (by
        intro b hb
        simp only [hst1, if_neg (hdist b hb)]
        exact hfresh b (List.mem_cons_of_mem bit hb))
    refine ⟨st', ?_, by rw [hlen, hlen1], ?_, ?_⟩
    · simp only [apply_bits, hbit]
      exact heq
    · intro a ha
      have ha1 : bit.idx + offset ≠ a := ha bit (List.mem_cons_self bit rest)
      obtain ⟨hb1, hb2⟩ := huntouched a (fun b hb => ha b (List.mem_cons_of_mem bit hb))
      constructor
      · rw [hb1]
        simp only [hst1]
        exact getD_set_ne st.bitstream (bit.idx + offset) a bit.val false ha1
      · rw [hb2]
        simp only [hst1]
        rw [if_neg (fun hc => ha1 hc.symm)]
    · intro b hb
      rcases List.mem_cons.mp hb with hb | hb
      · subst hb
        obtain ⟨hb1, hb2⟩ := huntouched (b.idx + offset) (fun b' hb' => hdist b' hb')
        constructor
        · rw [hb1]
          simp only [hst1]
          exact getD_set_self st.bitstream (b.idx + offset) b.val false
            (hbound b (List.mem_cons_self b rest))
        · rw [hb2]
          simp [hst1]
      · obtain ⟨hb1, hb2⟩ := hwritten b hb
        refine ⟨hb1, ?_⟩
        rw [hb2]
        simp only [hst1, if_neg (hdist b hb)]

/-! ### Canonical statements and their resolution

A `Cert` packages the data of one canonical, disassembler-shaped
statement: a tile (`grid_<type>`) or routing component, a grid location
and a bare feature key.  `cert_ok` is the (decidable) conjunction of the
facts needed for the statement to resolve in a database. -/

inductive CKind
  | tile
  | routing
deriving DecidableEq

structure Cert where
  kind : CKind
  comp : List Char
  x : Nat
  y : Nat
  key : List Char
deriving DecidableEq

/-- The full second path segment of the statement. -/
def comp_full (c : Cert) : List Char :=
  match c.kind with
  | .tile => locComponent (gridPat ++ c.comp) c.x c.y
  | .routing => locComponent c.comp c.x c.y

/-- The feature path of the statement, in the exact shape the
disassembler emits. -/
def cert_path (c : Cert) : List Char :=
  fpgaTop ++ '.' :: (comp_full c ++ '.' :: c.key)

/-- The FASM line for the statement: value 1, and a canonicalization that
yields the single-bit statement itself (it is already canonical). -/
def cert_line (c : Cert) : FasmLine :=
  { set_feature := some
      { feature := cert_path c
        value := 1
        canonical := [{ feature := cert_path c, start := none, value := 1 }] } }

/-- The tile record the statement resolves to (tile kind). -/
def cert_tile (db : Database) (c : Cert) : Tile :=
  (alookup (c.x, c.y) db.tiles).getD ⟨[], 0, 0⟩

/-- The routing record the statement resolves to (routing kind). -/
def cert_sbox (db : Database) (c : Cert) : Sbox :=
  (alookup c.comp ((alookup (c.x, c.y) db.routing).getD [])).getD ⟨[], [], 0, 0⟩

/-- The segbit table the statement resolves to. -/
def cert_tbl (db : Database) (c : Cert) : SegbitTable :=
  match c.kind with
  | .tile => (alookup c.comp db.segbits).getD []
  | .routing => (alookup (c.comp ++ '_' :: (cert_sbox db c).variant) db.segbits).getD []

/-- The base bit offset the statement resolves to (local offset plus the
region's logical offset). -/
def cert_offset (db : Database) (c : Cert) : Nat :=
  match c.kind with
  | .tile => (cert_tile db c).offset +
      ((alookup (cert_tile db c).region db.regions).getD ⟨0, 0⟩).offset
  | .routing => (cert_sbox db c).offset +
      ((alookup (cert_sbox db c).region db.regions).getD ⟨0, 0⟩).offset

/-- The segbit pattern of the statement's feature key. -/
def cert_bits (db : Database) (c : Cert) : SegbitPattern :=
  (alookup c.key (cert_tbl db c)).getD []

/-- All facts needed for the statement to resolve against `db` (and for
its path to be re-emitted verbatim by the disassembler): the component
name is nonempty, dot-free and (tile) `grid_`-free / (routing)
underscore-free, the look-ups succeed, the record's type equals the
component, the pattern's indices are distinct, and all its addresses are
inside the bitstream. -/
def cert_ok (db : Database) (c : Cert) : Bool :=
  match c.kind with
  | .tile =>
    (!c.comp.isEmpty) && noChar '.' c.comp && noGridSub c.comp &&
    (alookup (c.x, c.y) db.tiles).isSome &&
    ((cert_tile db c).type == c.comp) &&
    (alookup c.comp db.segbits).isSome &&
    (alookup (cert_tile db c).region db.regions).isSome &&
    (alookup c.key (cert_tbl db c)).isSome &&
    decide ((cert_bits db c).map Bit.idx).Nodup &&
    (cert_bits db c).all (fun b => b.idx + cert_offset db c < db.bitstream_size)
  | .routing =>
    (!c.comp.isEmpty) && noChar '.' c.comp && noChar '_' c.comp &&
    (alookup (c.x, c.y) db.routing).isSome &&
    (alookup c.comp ((alookup (c.x, c.y) db.routing).getD [])).isSome &&
    ((cert_sbox db c).type == c.comp) &&
    (alookup (c.comp ++ '_' :: (cert_sbox db c).variant) db.segbits).isSome &&
    (alookup (cert_sbox db c).region db.regions).isSome &&
    (alookup c.key (cert_tbl db c)).isSome &&
    decide ((cert_bits db c).map Bit.idx).Nodup &&
    (cert_bits db c).all (fun b => b.idx + cert_offset db c < db.bitstream_size)

theorem all_isDig_noChar_dot (s : List Char) (h : s.all isDig = true) :
    noChar '.' s = true := by
  simp only [noChar, List.all_eq_true, decide_eq_true_eq]
  simp only [List.all_eq_true] at h
  exact fun x hx => isDig_ne_dot (h x hx)

theorem noChar_append (c : Char) (a b : List Char) :
    noChar c (a ++ b) = (noChar c a && noChar c b) := by
  simp [noChar, List.all_append]

theorem noChar_dot_locComponent (nm : List Char) (x y : Nat)
    (h : noChar '.' nm = true) : noChar '.' (locComponent nm x y) = true := by
  simp only [locComponent, noChar_append, Bool.and_eq_true, h, true_and]
  simp only [noChar, List.all_cons, List.all_append, List.all_cons, List.all_nil,
    Bool.and_eq_true, decide_eq_true_eq]
  refine ⟨by decide, ?_, by decide, by decide, ?_, by decide, trivial⟩
  · have := all_isDig_noChar_dot (natDigits x) (natDigits_all_isDig x)
    simpa [noChar] using this
  · have := all_isDig_noChar_dot (natDigits y) (natDigits_all_isDig y)
    simpa [noChar] using this

theorem splitOnChar_cert_path (c : Cert) (h : noChar '.' (comp_full c) = true) :
    splitOnChar '.' (cert_path c) =
      fpgaTop :: comp_full c :: splitOnChar '.' c.key := by
  rw [cert_path, splitOnChar_append '.' fpgaTop _ (by decide),
    splitOnChar_append '.' (comp_full c) c.key h]

theorem isPrefixOf_self_append (l t : List Char) : l.isPrefixOf (l ++ t) = true := by
  induction l with
  | nil => simp [List.isPrefixOf]
  | cons x xs ih => simpa [List.isPrefixOf] using ih

theorem takeWhile_all {α : Type} (p : α → Bool) (l : List α) (h : l.all p = true) :
    l.takeWhile p = l := by
  induction l with
  | nil => rfl
  | cons x xs ih =>
    simp only [List.all_cons, Bool.and_eq_true] at h
    simp [List.takeWhile_cons, h.1, ih h.2]

theorem gridPat_not_prefixOf_of_noUnderscore (s : List Char)
    (h : noChar '_' s = true) : gridPat.isPrefixOf s = false := by
  by_contra hne
  have hp : gridPat.isPrefixOf s = true := by
    cases hb : gridPat.isPrefixOf s with
    | false => exact absurd hb hne
    | true => rfl
  have hpre : gridPat <+: s := by
    exact List.isPrefixOf_iff_prefix.mp hp
  have hmem : '_' ∈ s := hpre.subset (by decide)
  simp only [noChar, List.all_eq_true, decide_eq_true_eq] at h
  exact h '_' hmem rfl

theorem noChar_dot_comp_full (c : Cert) (h : noChar '.' c.comp = true) :
    noChar '.' (comp_full c) = true := by
  cases hk : c.kind <;>
    simp only [comp_full, hk] <;>
    apply noChar_dot_locComponent <;>
    simp [noChar_append, h, show noChar '.' gridPat = true from by decide]

theorem resolve_path_cert (db : Database) (c : Cert) (h : cert_ok db c = true) :
    resolve_path db (cert_path c) = .ok (cert_tbl db c, cert_offset db c) := by
  obtain ⟨kind, comp, x, y, key⟩ := c
  cases kind with
  | tile =>
    simp only [cert_ok, Bool.and_eq_true, beq_iff_eq, Bool.not_eq_true',
      List.isEmpty_eq_false_iff_exists_mem, decide_eq_true_eq] at h
    obtain ⟨⟨⟨⟨⟨⟨⟨⟨⟨hne, hdot⟩, hgrid⟩, htl⟩, hty⟩, hsg⟩, hrg⟩, hkey⟩, hnd⟩, hall⟩ := h
    obtain ⟨tile, htile⟩ := Option.isSome_iff_exists.mp htl
    obtain ⟨tbl, htbl⟩ := Option.isSome_iff_exists.mp hsg
    have hcomp_ne : comp ≠ [] := by
      obtain ⟨a, ha⟩ := hne
      intro hc
      rw [hc] at ha
      exact absurd ha (List.not_mem_nil a)
    have hsplit := splitOnChar_cert_path ⟨.tile, comp, x, y, key⟩
      (noChar_dot_comp_full _ hdot)
    simp only [resolve_path, hsplit]
    rw [if_neg (by
      simp only [List.length_cons, List.headD_cons, not_or]
      constructor
      · have := List.length_pos.mpr (splitOnChar_ne_nil '.' key)
        omega
      · simp)]
    have hgd : (fpgaTop :: comp_full ⟨.tile, comp, x, y, key⟩ ::
        splitOnChar '.' key).getD 1 [] = comp_full ⟨.tile, comp, x, y, key⟩ := rfl
    rw [hgd]
    have hcf : comp_full ⟨.tile, comp, x, y, key⟩ =
        locComponent (gridPat ++ comp) x y := rfl
    rw [hcf, locMatch_locComponent (gridPat ++ comp) x y (by simp [gridPat])]
    simp only [digitsToNat_natDigits]
    rw [if_pos (isPrefixOf_self_append gridPat comp)]
    rw [replaceGrid_grid, replaceGrid_of_noGridSub comp hgrid]
    simp only [htile, htbl]
    have hct : cert_tile db ⟨.tile, comp, x, y, key⟩ = tile := by
      simp [cert_tile, htile]
    rw [hct] at hrg
    obtain ⟨reg, hreg⟩ := Option.isSome_iff_exists.mp hrg
    simp only [hreg]
    have h1 : cert_tbl db ⟨.tile, comp, x, y, key⟩ = tbl := by
      simp [cert_tbl, htbl]
    have h2 : cert_offset db ⟨.tile, comp, x, y, key⟩ = tile.offset + reg.offset := by
      simp [cert_offset, hct, hreg]
    rw [h1, h2]
  | routing =>
    simp only [cert_ok, Bool.and_eq_true, beq_iff_eq, Bool.not_eq_true',
      List.isEmpty_eq_false_iff_exists_mem, decide_eq_true_eq] at h
    obtain ⟨⟨⟨⟨⟨⟨⟨⟨⟨⟨hne, hdot⟩, hund⟩, hrt⟩, hsb⟩, hty⟩, hsg⟩, hrg⟩, hkey⟩, hnd⟩, hall⟩ := h
    obtain ⟨rmap, hrmap⟩ := Option.isSome_iff_exists.mp hrt
    have hcomp_ne : comp ≠ [] := by
      obtain ⟨a, ha⟩ := hne
      intro hc
      rw [hc] at ha
      exact absurd ha (List.not_mem_nil a)
    have hsplit := splitOnChar_cert_path ⟨.routing, comp, x, y, key⟩
      (noChar_dot_comp_full _ hdot)
    simp only [resolve_path, hsplit]
    rw [if_neg (by
      simp only [List.length_cons, List.headD_cons, not_or]
      constructor
      · have := List.length_pos.mpr (splitOnChar_ne_nil '.' key)
        omega
      · simp)]
    have hgd : (fpgaTop :: comp_full ⟨.routing, comp, x, y, key⟩ ::
        splitOnChar '.' key).getD 1 [] = comp_full ⟨.routing, comp, x, y, key⟩ := rfl
    rw [hgd]
    have hcf : comp_full ⟨.routing, comp, x, y, key⟩ = locComponent comp x y := rfl
    rw [hcf, locMatch_locComponent comp x y hcomp_ne]
    simp only [digitsToNat_natDigits]
    rw [if_neg (by rw [gridPat_not_prefixOf_of_noUnderscore comp hund]; simp)]
    rw [takeWhile_all _ comp (by simpa [noChar] using hund)]
    rw [hrmap] at hsb
    simp only [Option.getD_some] at hsb
    obtain ⟨sbox, hsbox⟩ := Option.isSome_iff_exists.mp hsb
    have hcs : cert_sbox db ⟨.routing, comp, x, y, key⟩ = sbox := by
      simp [cert_sbox, hrmap, hsbox]
    rw [hcs] at hsg hrg
    obtain ⟨tbl, htbl⟩ := Option.isSome_iff_exists.mp hsg
    obtain ⟨reg, hreg⟩ := Option.isSome_iff_exists.mp hrg
    simp only [hrmap, hsbox, htbl, hreg]
    have h1 : cert_tbl db ⟨.routing, comp, x, y, key⟩ = tbl := by
      simp [cert_tbl, hcs, htbl]
    have h2 : cert_offset db ⟨.routing, comp, x, y, key⟩ = sbox.offset + reg.offset := by
      simp [cert_offset, hcs, hreg]
    rw [h1, h2]

theorem cert_ok_dot (db : Database) (c : Cert) (h : cert_ok db c = true) :
    noChar '.' c.comp = true := by
  obtain ⟨kind, comp, x, y, key⟩ := c
  cases kind with
  | tile =>
    simp only [cert_ok, Bool.and_eq_true] at h
    exact h.1.1.1.1.1.1.1.1.2
  | routing =>
    simp only [cert_ok, Bool.and_eq_true] at h
    exact h.1.1.1.1.1.1.1.1.1.2

theorem cert_ok_key (db : Database) (c : Cert) (h : cert_ok db c = true) :
    alookup c.key (cert_tbl db c) = some (cert_bits db c) := by
  have hsome : (alookup c.key (cert_tbl db c)).isSome = true := by
    obtain ⟨kind, comp, x, y, key⟩ := c
    cases kind <;>
      simp only [cert_ok, Bool.and_eq_true] at h <;>
      exact h.1.1.2
  obtain ⟨v, hv⟩ := Option.isSome_iff_exists.mp hsome
  rw [hv, cert_bits, hv, Option.getD_some]

theorem cert_ok_nodup (db : Database) (c : Cert) (h : cert_ok db c = true) :
    ((cert_bits db c).map Bit.idx).Nodup := by
  obtain ⟨kind, comp, x, y, key⟩ := c
  cases kind <;>
    simp only [cert_ok, Bool.and_eq_true, decide_eq_true_eq] at h <;>
    exact h.1.2

theorem cert_ok_bounds (db : Database) (c : Cert) (h : cert_ok db c = true) :
    ∀ b ∈ cert_bits db c, b.idx + cert_offset db c < db.bitstream_size := by
  have hall : (cert_bits db c).all
      (fun b => b.idx + cert_offset db c < db.bitstream_size) = true := by
    obtain ⟨kind, comp, x, y, key⟩ := c
    cases kind <;>
      simp only [cert_ok, Bool.and_eq_true] at h <;>
      exact h.2
  simpa [List.all_eq_true] using hall

theorem process_features_one (tbl : SegbitTable) (off : Nat) (st : AssemblerState)
    (f : OneFeature) :
    process_features tbl off st [f] = process_one_feature tbl off st f := by
  simp only [process_features]
  cases hpf : process_one_feature tbl off st f with
  | mk st' e => cases e <;> simp [process_features]

theorem feature_base_name_cert (c : Cert) (hdot : noChar '.' c.comp = true) :
    feature_base_name { feature := cert_path c, start := none, value := 1 } = c.key := by
  simp only [feature_base_name]
  rw [splitOnChar_cert_path c (noChar_dot_comp_full c hdot)]
  simp only [List.drop_succ_cons, List.drop_zero]
  exact joinSep_splitOnChar '.' c.key

/-- A canonical statement with a valid certificate is processed exactly by
applying its pattern's bits under its key at its resolved offset. -/
theorem process_fasm_line_cert (db : Database) (c : Cert) (st : AssemblerState)
    (h : cert_ok db c = true) :
    process_fasm_line db st (cert_line c) =
      apply_bits c.key (cert_offset db c) st (cert_bits db c) := by
  simp only [process_fasm_line, cert_line]
  rw [if_neg (by simp)]
  simp only [resolve_path_cert db c h]
  rw [process_features_one]
  simp only [process_one_feature]
  rw [if_neg (by simp), if_neg (by simp)]
  rw [feature_base_name_cert c (cert_ok_dot db c h)]
  simp only [lookup_feature_bits, cert_ok_key db c h]
  simp

/-! ### Assembling a list of canonical statements -/

/-- The bit addresses a canonical statement writes. -/
def cert_addrs (db : Database) (c : Cert) : List Nat :=
  (cert_bits db c).map (fun b => b.idx + cert_offset db c)

/-- "No colliding addresses": distinct statements write disjoint address
sets. -/
def certs_disjoint (db : Database) (certs : List Cert) : Prop :=
  List.Pairwise (fun c1 c2 => ∀ a ∈ cert_addrs db c1, a ∉ cert_addrs db c2) certs

instance certs_disjoint_decidable (db : Database) (certs : List Cert) :
    Decidable (certs_disjoint db certs) := by
  unfold certs_disjoint
  infer_instance

theorem assemble_loop_certs (db : Database) :
    ∀ (certs : List Cert) (st : AssemblerState) (unk : List FasmLine),
      (∀ c ∈ certs, cert_ok db c = true) →
      certs_disjoint db certs →
      st.bitstream.length = db.bitstream_size →
      (∀ c ∈ certs, ∀ a ∈ cert_addrs db c, st.features_by_bits a = []) →
      ∃ st', assemble_loop db (certs.map cert_line) st unk = .ok (st', unk) ∧
        st'.bitstream.length = db.bitstream_size ∧
        (∀ a : Nat, (∀ c ∈ certs, a ∉ cert_addrs db c) →
          st'.bitstream.getD a false = st.bitstream.getD a false ∧
          st'.features_by_bits a = st.features_by_bits a) ∧
        (∀ c ∈ certs, ∀ b ∈ cert_bits db c,
          st'.bitstream.getD (b.idx + cert_offset db c) false = b.val ∧
          c.key ∈ st'.features_by_bits (b.idx + cert_offset db c)) := by
  intro certs
  induction certs with
  | nil =>
    intro st unk _ _ hlen _
    exact ⟨st, rfl, hlen, fun a _ => ⟨rfl, rfl⟩, by simp⟩
  | cons c rest ih =>
    intro st unk hok hdisj hlen hfresh
    have hdisj' := (List.pairwise_cons.mp hdisj)
    obtain ⟨st1, happly, hlen1, huntouched1, hwritten1⟩ :=
      apply_bits_spec c.key (cert_offset db c) (cert_bits db c) st
        (cert_ok_nodup db c (hok c (List.mem_cons_self c rest)))
        (by
          intro b hb
          rw [hlen]
          exact cert_ok_bounds db c (hok c (List.mem_cons_self c rest)) b hb)
        (by
          intro b hb
          rw [hfresh c (List.mem_cons_self c rest) (b.idx + cert_offset db c)
            (List.mem_map.mpr ⟨b, hb, rfl⟩)]
          exact List.not_mem_nil c.key)
    have hproc : process_fasm_line db st (cert_line c) = (st1, none) := by
      rw [process_fasm_line_cert db c st (hok c (List.mem_cons_self c rest))]
      exact happly
    obtain ⟨st', hloop, hlen', huntouched', hwritten'⟩ := ih st1 unk
      (fun c2 hc2 => hok c2 (List.mem_cons_of_mem c hc2))
      hdisj'.2
      (by rw [hlen1, hlen])
      (by
        intro c2 hc2 a ha
        have hnot : a ∉ cert_addrs db c := fun hc => hdisj'.1 c2 hc2 a hc ha
        have := (huntouched1 a (by
          intro b hb heq
          exact hnot (List.mem_map.mpr ⟨b, hb, heq⟩))).2
        rw [this]
        exact hfresh c2 (List.mem_cons_of_mem c hc2) a ha)
    refine ⟨st', ?_, hlen', ?_, ?_⟩
    · simp only [List.map_cons, assemble_loop, hproc]
      exact hloop
    · intro a ha
      have h1 := huntouched' a (fun c2 hc2 => ha c2 (List.mem_cons_of_mem c hc2))
      have h2 := huntouched1 a (by
        intro b hb heq
        exact ha c (List.mem_cons_self c rest) (List.mem_map.mpr ⟨b, hb, heq⟩))
      exact ⟨h1.1.trans h2.1, h1.2.trans h2.2⟩
    · intro c2 hc2 b hb
      rcases List.mem_cons.mp hc2 with hc2 | hc2
      · subst hc2
        have haddr : b.idx + cert_offset db c2 ∈ cert_addrs db c2 :=
          List.mem_map.mpr ⟨b, hb, rfl⟩
        have hnot : ∀ c3 ∈ rest, b.idx + cert_offset db c2 ∉ cert_addrs db c3 :=
          fun c3 hc3 => hdisj'.1 c3 hc3 _ haddr
        have h1 := huntouched' (b.idx + cert_offset db c2) hnot
        obtain ⟨hw1, hw2⟩ := hwritten1 b hb
        constructor
        · rw [h1.1, hw1]
        · rw [h1.2, hw2]
          exact List.mem_cons_self c2.key _
      · exact hwritten' c2 hc2 b hb

theorem getD_replicate_false (n a : Nat) :
    (List.replicate n false).getD a false = false := by
  induction n generalizing a with
  | zero => simp
  | succ n ih =>
    cases a with
    | zero => simp [List.replicate]
    | succ a => simpa [List.replicate] using ih a

/-- Assembling a disjoint list of valid canonical statements from the
initial state succeeds with no unknown features; the final bitstream
holds exactly the written pattern bits (everything else is 0), and each
statement's key is recorded at each address it wrote. -/
theorem assemble_certs (db : Database) (certs : List Cert)
    (hok : ∀ c ∈ certs, cert_ok db c = true)
    (hdisj : certs_disjoint db certs) :
    ∃ st', assemble_bitstream db (certs.map cert_line) = .ok (st', []) ∧
      st'.bitstream.length = db.bitstream_size ∧
      (∀ a : Nat, (∀ c ∈ certs, a ∉ cert_addrs db c) →
        st'.bitstream.getD a false = false) ∧
      (∀ c ∈ certs, ∀ b ∈ cert_bits db c,
        st'.bitstream.getD (b.idx + cert_offset db c) false = b.val ∧
        c.key ∈ st'.features_by_bits (b.idx + cert_offset db c)) := by
  obtain ⟨st', hloop, hlen, huntouched, hwritten⟩ :=
    assemble_loop_certs db certs (init_state db) [] hok hdisj
      (by simp [init_state]) (fun _ _ _ _ => rfl)
  refine ⟨st', hloop, hlen, ?_, hwritten⟩
  intro a ha
  rw [(huntouched a ha).1]
  exact getD_replicate_false db.bitstream_size a

/-! ### Disassembler output characterization -/

theorem pattern_matches_cons (bs : List Bool) (b : Bit) (rest : SegbitPattern)
    (offset : Nat) :
    pattern_matches bs (b :: rest) offset =
      (decide (bs.getD (b.idx + offset) false = b.val) &&
        pattern_matches bs rest offset) := rfl

theorem match_segbits_eq (bs : List Bool) (offset : Nat) (bits : SegbitPattern)
    (h : ∀ b ∈ bits, b.idx + offset < bs.length) :
    match_segbits bs offset bits = some (pattern_matches bs bits offset) := by
  induction bits with
  | nil => simp [match_segbits, pattern_matches]
  | cons b rest ih =>
    have hb := h b (List.mem_cons_self b rest)
    simp only [match_segbits, if_pos hb]
    by_cases hv : bs.getD (b.idx + offset) false = b.val
    · have hd : decide (bs.getD (b.idx + offset) false = b.val) = true :=
        decide_eq_true hv
      rw [if_neg (not_not_intro hv)]
      rw [ih (fun b' hb' => h b' (List.mem_cons_of_mem b hb'))]
      rw [pattern_matches_cons, hd, Bool.true_and]
    · have hd : decide (bs.getD (b.idx + offset) false = b.val) = false :=
        decide_eq_false hv
      rw [if_pos hv]
      rw [pattern_matches_cons, hd, Bool.false_and]

theorem disassemble_table_spec (bs : List Bool) (pfx : List Char) (offset : Nat)
    (tbl : SegbitTable)
    (h : ∀ q ∈ tbl, ∀ b ∈ q.2, b.idx + offset < bs.length) :
    disassemble_table bs pfx offset false tbl =
      .ok (tbl.filterMap (fun q =>
        if pattern_matches bs q.2 offset then some (pfx ++ '.' :: q.1) else none)) := by
  induction tbl with
  | nil => simp [disassemble_table]
  | cons q rest ih =>
    obtain ⟨feature, bits⟩ := q
    have hq := h ⟨feature, bits⟩ (List.mem_cons_self _ rest)
    have ih' := ih (fun q' hq' => h q' (List.mem_cons_of_mem _ hq'))
    simp only [disassemble_table, match_segbits_eq bs offset bits hq, List.filterMap_cons]
    cases hv : pattern_matches bs bits offset with
    | false =>
      rw [if_pos (by simp)]
      rw [ih']
      simp
    | true =>
      rw [if_neg (by simp)]
      rw [ih']
      simp [Except.map]

/-- Database well-formedness needed by the disassembler: every tile's and
routing entry's segbit table and region exist, and every pattern address
is inside the bitstream. -/
def db_ok (db : Database) : Prop :=
  (∀ p ∈ db.tiles,
    (alookup p.2.type db.segbits).isSome = true ∧
    (alookup p.2.region db.regions).isSome = true ∧
    ∀ q ∈ (alookup p.2.type db.segbits).getD [], ∀ b ∈ q.2,
      b.idx + (p.2.offset + ((alookup p.2.region db.regions).getD ⟨0, 0⟩).offset) <
        db.bitstream_size) ∧
  (∀ p ∈ db.routing, ∀ q ∈ p.2,
    (alookup (q.2.type ++ '_' :: q.2.variant) db.segbits).isSome = true ∧
    (alookup q.2.region db.regions).isSome = true ∧
    ∀ r ∈ (alookup (q.2.type ++ '_' :: q.2.variant) db.segbits).getD [], ∀ b ∈ r.2,
      b.idx + (q.2.offset + ((alookup q.2.region db.regions).getD ⟨0, 0⟩).offset) <
        db.bitstream_size)

instance db_ok_decidable (db : Database) : Decidable (db_ok db) := by
  unfold db_ok
  infer_instance

theorem disassemble_tiles_spec (db : Database) (bs : List Bool)
    (hlen : bs.length = db.bitstream_size)
    (ts : List ((Nat × Nat) × Tile))
    (h : ∀ p ∈ ts,
      (alookup p.2.type db.segbits).isSome = true ∧
      (alookup p.2.region db.regions).isSome = true ∧
      ∀ q ∈ (alookup p.2.type db.segbits).getD [], ∀ b ∈ q.2,
        b.idx + (p.2.offset + ((alookup p.2.region db.regions).getD ⟨0, 0⟩).offset) <
          db.bitstream_size) :
    disassemble_tiles db bs false ts = .ok ((ts.map (tile_paths db bs)).flatten) := by
  induction ts with
  | nil => simp [disassemble_tiles]
  | cons p rest ih =>
    obtain ⟨loc, tile⟩ := p
    obtain ⟨hsg, hrg, hbound⟩ := h ⟨loc, tile⟩ (List.mem_cons_self _ rest)
    obtain ⟨tbl, htbl⟩ := Option.isSome_iff_exists.mp hsg
    obtain ⟨reg, hreg⟩ := Option.isSome_iff_exists.mp hrg
    rw [htbl] at hbound
    simp only [Option.getD_some] at hbound
    have hbound' : ∀ q ∈ tbl, ∀ b ∈ q.2, b.idx + (tile.offset + reg.offset) < bs.length := by
      intro q hq b hb
      rw [hlen]
      have := hbound q hq b hb
      rw [hreg] at this
      simpa using this
    simp only [disassemble_tiles, htbl, hreg,
      disassemble_table_spec bs (tile_pfx tile loc) (tile.offset + reg.offset) tbl hbound']
    rw [ih (fun p' hp' => h p' (List.mem_cons_of_mem _ hp'))]
    simp only [Except.map, List.map_cons, List.flatten_cons]
    congr 1
    simp only [tile_paths, htbl, hreg, Option.getD_some]

theorem disassemble_sboxes_spec (db : Database) (bs : List Bool)
    (hlen : bs.length = db.bitstream_size) (loc : Nat × Nat)
    (sbs : List (List Char × Sbox))
    (h : ∀ q ∈ sbs,
      (alookup (q.2.type ++ '_' :: q.2.variant) db.segbits).isSome = true ∧
      (alookup q.2.region db.regions).isSome = true ∧
      ∀ r ∈ (alookup (q.2.type ++ '_' :: q.2.variant) db.segbits).getD [], ∀ b ∈ r.2,
        b.idx + (q.2.offset + ((alookup q.2.region db.regions).getD ⟨0, 0⟩).offset) <
          db.bitstream_size) :
    disassemble_sboxes db bs false loc sbs = .ok ((sbs.map (sbox_paths db bs loc)).flatten) := by
  induction sbs with
  | nil => simp [disassemble_sboxes]
  | cons q rest ih =>
    obtain ⟨ty, sbox⟩ := q
    obtain ⟨hsg, hrg, hbound⟩ := h ⟨ty, sbox⟩ (List.mem_cons_self _ rest)
    obtain ⟨tbl, htbl⟩ := Option.isSome_iff_exists.mp hsg
    obtain ⟨reg, hreg⟩ := Option.isSome_iff_exists.mp hrg
    rw [htbl] at hbound
    simp only [Option.getD_some] at hbound
    have hbound' : ∀ r ∈ tbl, ∀ b ∈ r.2, b.idx + (sbox.offset + reg.offset) < bs.length := by
      intro r hr b hb
      rw [hlen]
      have := hbound r hr b hb
      rw [hreg] at this
      simpa using this
    simp only [disassemble_sboxes, htbl, hreg,
      disassemble_table_spec bs (sbox_pfx sbox loc) (sbox.offset + reg.offset) tbl hbound']
    rw [ih (fun q' hq' => h q' (List.mem_cons_of_mem _ hq'))]
    simp only [Except.map, List.map_cons, List.flatten_cons]
    congr 1
    simp only [sbox_paths, htbl, hreg, Option.getD_some]

theorem disassemble_routing_spec (db : Database) (bs : List Bool)
    (hlen : bs.length = db.bitstream_size)
    (rs : List ((Nat × Nat) × List (List Char × Sbox)))
    (h : ∀ p ∈ rs, ∀ q ∈ p.2,
      (alookup (q.2.type ++ '_' :: q.2.variant) db.segbits).isSome = true ∧
      (alookup q.2.region db.regions).isSome = true ∧
      ∀ r ∈ (alookup (q.2.type ++ '_' :: q.2.variant) db.segbits).getD [], ∀ b ∈ r.2,
        b.idx + (q.2.offset + ((alookup q.2.region db.regions).getD ⟨0, 0⟩).offset) <
          db.bitstream_size) :
    disassemble_routing db bs false rs =
      .ok ((rs.map (fun p => (p.2.map (sbox_paths db bs p.1)).flatten)).flatten) := by
  induction rs with
  | nil => simp [disassemble_routing]
  | cons p rest ih =>
    obtain ⟨loc, rmap⟩ := p
    simp only [disassemble_routing,
      disassemble_sboxes_spec db bs hlen loc rmap (h ⟨loc, rmap⟩ (List.mem_cons_self _ rest))]
    rw [ih (fun p' hp' => h p' (List.mem_cons_of_mem _ hp'))]
    simp [Except.map]

/-- With a well-formed database and a correctly sized bitstream, the
disassembler succeeds and (with `emit_unset` disabled) emits exactly the
paths of the features whose patterns match, in database order. -/
theorem disassemble_eq_matchedPaths (db : Database) (bs : List Bool)
    (hdb : db_ok db) (hlen : bs.length = db.bitstream_size) :
    disassemble_bitstream db bs false = .ok (matchedPaths db bs) := by
  simp only [disassemble_bitstream, if_neg (by omega : ¬bs.length ≠ db.bitstream_size)]
  rw [disassemble_tiles_spec db bs hlen db.tiles hdb.1,
    disassemble_routing_spec db bs hlen db.routing hdb.2]
  rfl

/-! ### Round trip: assembled statements are re-emitted -/

theorem tile_pfx_cert (comp : List Char) (x y : Nat) (key : List Char) (tile : Tile)
    (hty : tile.type = comp) :
    tile_pfx tile (x, y) ++ '.' :: key = cert_path ⟨.tile, comp, x, y, key⟩ := by
  simp only [tile_pfx, cert_path, comp_full, locComponent, hty]
  rw [show strL "fpga_top.grid_" = fpgaTop ++ '.' :: gridPat from by decide]
  simp [List.append_assoc]

theorem sbox_pfx_cert (comp : List Char) (x y : Nat) (key : List Char) (sbox : Sbox)
    (hty : sbox.type = comp) :
    sbox_pfx sbox (x, y) ++ '.' :: key = cert_path ⟨.routing, comp, x, y, key⟩ := by
  simp only [sbox_pfx, cert_path, comp_full, locComponent, hty]
  rw [show strL "fpga_top." = fpgaTop ++ ['.'] from by decide]
  simp [List.append_assoc]

theorem cert_path_mem_matchedPaths (db : Database) (bs : List Bool) (c : Cert)
    (h : cert_ok db c = true)
    (hmatch : pattern_matches bs (cert_bits db c) (cert_offset db c) = true) :
    cert_path c ∈ matchedPaths db bs := by
  have hkey := cert_ok_key db c h
  obtain ⟨kind, comp, x, y, key⟩ := c
  cases kind with
  | tile =>
    have htl : (alookup (x, y) db.tiles).isSome = true := by
      simp only [cert_ok, Bool.and_eq_true] at h
      exact h.1.1.1.1.1.1.2
    have hty0 : (cert_tile db ⟨.tile, comp, x, y, key⟩).type = comp := by
      simp only [cert_ok, Bool.and_eq_true, beq_iff_eq] at h
      exact h.1.1.1.1.1.2
    obtain ⟨tile, htile⟩ := Option.isSome_iff_exists.mp htl
    have hct : cert_tile db ⟨.tile, comp, x, y, key⟩ = tile := by
      simp [cert_tile, htile]
    have hty : tile.type = comp := by rw [← hct]; exact hty0
    have hmem : ((x, y), tile) ∈ db.tiles := alookup_mem (x, y) db.tiles tile htile
    have hqmem : (key, cert_bits db ⟨.tile, comp, x, y, key⟩) ∈
        cert_tbl db ⟨.tile, comp, x, y, key⟩ :=
      alookup_mem key _ _ hkey
    have hin : cert_path ⟨.tile, comp, x, y, key⟩ ∈ tile_paths db bs ((x, y), tile) := by
      apply List.mem_filterMap.mpr
      refine ⟨(key, cert_bits db ⟨.tile, comp, x, y, key⟩), ?_, ?_⟩
      · show (key, cert_bits db ⟨.tile, comp, x, y, key⟩) ∈
          (alookup tile.type db.segbits).getD []
        rw [hty]
        exact hqmem
      · have hoff : tile.offset + ((alookup tile.region db.regions).getD ⟨0, 0⟩).offset =
            cert_offset db ⟨.tile, comp, x, y, key⟩ := by
          simp [cert_offset, hct]
        simp only [hoff, hmatch, if_pos]
        rw [tile_pfx_cert comp x y key tile hty]
    apply List.mem_append.mpr
    left
    apply List.mem_flatten.mpr
    exact ⟨tile_paths db bs ((x, y), tile), List.mem_map.mpr ⟨((x, y), tile), hmem, rfl⟩, hin⟩
  | routing =>
    have hrt : (alookup (x, y) db.routing).isSome = true := by
      simp only [cert_ok, Bool.and_eq_true] at h
      exact h.1.1.1.1.1.1.1.2
    have hsb : (alookup comp ((alookup (x, y) db.routing).getD [])).isSome = true := by
      simp only [cert_ok, Bool.and_eq_true] at h
      exact h.1.1.1.1.1.1.2
    have hty0 : (cert_sbox db ⟨.routing, comp, x, y, key⟩).type = comp := by
      simp only [cert_ok, Bool.and_eq_true, beq_iff_eq] at h
      exact h.1.1.1.1.1.2
    obtain ⟨rmap, hrmap⟩ := Option.isSome_iff_exists.mp hrt
    rw [hrmap] at hsb
    simp only [Option.getD_some] at hsb
    obtain ⟨sbox, hsbox⟩ := Option.isSome_iff_exists.mp hsb
    have hcs : cert_sbox db ⟨.routing, comp, x, y, key⟩ = sbox := by
      simp [cert_sbox, hrmap, hsbox]
    have hty : sbox.type = comp := by rw [← hcs]; exact hty0
    have hmem : ((x, y), rmap) ∈ db.routing := alookup_mem (x, y) db.routing rmap hrmap
    have hqmem2 : (comp, sbox) ∈ rmap := alookup_mem comp rmap sbox hsbox
    have hqmem : (key, cert_bits db ⟨.routing, comp, x, y, key⟩) ∈
        cert_tbl db ⟨.routing, comp, x, y, key⟩ :=
      alookup_mem key _ _ hkey
    have hin : cert_path ⟨.routing, comp, x, y, key⟩ ∈
        sbox_paths db bs (x, y) (comp, sbox) := by
      apply List.mem_filterMap.mpr
      refine ⟨(key, cert_bits db ⟨.routing, comp, x, y, key⟩), ?_, ?_⟩
      · show (key, cert_bits db ⟨.routing, comp, x, y, key⟩) ∈
          (alookup (sbox.type ++ '_' :: sbox.variant) db.segbits).getD []
        rw [hty]
        have : cert_tbl db ⟨.routing, comp, x, y, key⟩ =
            (alookup (comp ++ '_' :: sbox.variant) db.segbits).getD [] := by
          simp [cert_tbl, hcs]
        rw [← this]
        exact hqmem
      · have hoff : sbox.offset + ((alookup sbox.region db.regions).getD ⟨0, 0⟩).offset =
            cert_offset db ⟨.routing, comp, x, y, key⟩ := by
          simp [cert_offset, hcs]
        simp only [hoff, hmatch, if_pos]
        rw [sbox_pfx_cert comp x y key sbox hty]
    apply List.mem_append.mpr
    right
    apply List.mem_flatten.mpr
    refine ⟨(rmap.map (sbox_paths db bs (x, y))).flatten,
      List.mem_map.mpr ⟨((x, y), rmap), hmem, rfl⟩, ?_⟩
    apply List.mem_flatten.mpr
    exact ⟨sbox_paths db bs (x, y) (comp, sbox),
      List.mem_map.mpr ⟨(comp, sbox), hqmem2, rfl⟩, hin⟩

/-! ### Claim C1 -/

/-- `disassemble(assemble(F), emitUnset=false)` as one function (`None`
when assembly or disassembly raises). -/
def fasm_roundtrip (db : Database) (lines : List FasmLine) : Option (List (List Char)) :=
  match assemble_bitstream db lines with
  | .ok (st, _) => (disassemble_bitstream db st.bitstream false).toOption
  | .error _ => none

/-- A single-tile database whose table `T` has a feature `E` with an
empty pattern and a feature `N` whose pattern requires bit 0 to be 0. -/
def db1 : Database :=
  { tiles := [((0, 0), { type := strL "T", region := 0, offset := 0 })]
    routing := []
    segbits := [(strL "T", [(strL "E", []), (strL "N", [⟨0, false⟩])])]
    bitstream_size := 2
    regions := [(0, { offset := 0, length := 2 })] }

/-- The statement `fpga_top.grid_T_0__0_.E` (value 1). -/
def certE : Cert := ⟨.tile, strL "T", 0, 0, strL "E"⟩

/-- Claim C1, counterexample: `F = {fpga_top.grid_T_0__0_.E}` consists of
value-1 statements with no colliding addresses, and every path of `F`
with a nonempty resolved pattern — there are none, `E`'s pattern is
empty — should by the claim be exactly the disassembler output; but the
output also contains `E` itself (empty patterns match vacuously) and the
never-assembled feature `N` (its all-negated pattern matches the all-zero
bits), so it is not the empty list. -/
theorem round_trip_counterexample :
    fasm_roundtrip db1 [cert_line certE] =
      some [strL "fpga_top.grid_T_0__0_.E", strL "fpga_top.grid_T_0__0_.N"] ∧
    cert_bits db1 certE = [] ∧
    strL "fpga_top.grid_T_0__0_.N" ≠ cert_path certE ∧
    some [strL "fpga_top.grid_T_0__0_.E", strL "fpga_top.grid_T_0__0_.N"] ≠
      some ([] : List (List Char)) := by
  refine ⟨by decide, by decide, by decide, by decide⟩

/-- Claim C1 (amended): for a feature set of value-1 canonical statements
in disassembler-canonical form that resolve in the database, with no
colliding addresses, assembling succeeds with no unknown features and
disassembling the produced bitstream with emitUnset disabled yields
exactly the paths of the database features whose patterns match the
assembled array — which include every feature path of the input set
(empty-pattern features included), while features outside the set whose
patterns happen to match (e.g. empty or all-negated patterns) are also
emitted. -/
theorem round_trip_amended (db : Database) (certs : List Cert)
    (hok : ∀ c ∈ certs, cert_ok db c = true)
    (hdisj : certs_disjoint db certs)
    (hdb : db_ok db) :
    ∃ st, assemble_bitstream db (certs.map cert_line) = .ok (st, []) ∧
      disassemble_bitstream db st.bitstream false = .ok (matchedPaths db st.bitstream) ∧
      ∀ c ∈ certs, cert_path c ∈ matchedPaths db st.bitstream := by
  obtain ⟨st, hasm, hlen, hzero, hwritten⟩ := assemble_certs db certs hok hdisj
  refine ⟨st, hasm, disassemble_eq_matchedPaths db st.bitstream hdb hlen, ?_⟩
  intro c hc
  apply cert_path_mem_matchedPaths db st.bitstream c (hok c hc)
  simp only [pattern_matches, List.all_eq_true, decide_eq_true_eq]
  intro b hb
  exact (hwritten c hc b hb).1

/-- Witness for the amended claim C1 at a concrete database: the
two-feature set `{grid_T_0__0_.F0, grid_T_0__0_.F1}` of the spec's
concrete scenario. -/
def db2 : Database :=
  { tiles := [((0, 0), { type := strL "T", region := 0, offset := 0 })]
    routing := []
    segbits := [(strL "T", [(strL "F0", [⟨0, true⟩]), (strL "F1", [⟨1, true⟩])])]
    bitstream_size := 4
    regions := [(0, { offset := 0, length := 4 })] }

theorem round_trip_amended_witness :
    ∃ st, assemble_bitstream db2
        ([⟨.tile, strL "T", 0, 0, strL "F0"⟩].map cert_line) = .ok (st, []) ∧
      disassemble_bitstream db2 st.bitstream false = .ok (matchedPaths db2 st.bitstream) ∧
      ∀ c ∈ [(⟨.tile, strL "T", 0, 0, strL "F0"⟩ : Cert)],
        cert_path c ∈ matchedPaths db2 st.bitstream :=
  round_trip_amended db2 [⟨.tile, strL "T", 0, 0, strL "F0"⟩]
    (by decide) (by decide) (by decide)

/-! ### Claim C3: bitstream padding -/

theorem sliceAssign_length {α : Type} (dst : List α) (d l : Nat) (src : List α) (s : Nat)
    (hd : d + l ≤ dst.length) (hs : s + l ≤ src.length) :
    (sliceAssign dst d l src s).length = dst.length := by
  simp only [sliceAssign, List.length_append, List.length_take, List.length_drop]
  have h1 : d ⊓ dst.length = d := by omega
  have h2 : l ⊓ (src.length - s) = l := by omega
  omega

theorem sliceAssign_getD_lt {α : Type} (dst : List α) (d l : Nat) (src : List α) (s : Nat)
    (d0 : α) (i : Nat) (hi : i < d) (hd : d ≤ dst.length) :
    (sliceAssign dst d l src s).getD i d0 = dst.getD i d0 := by
  simp only [sliceAssign, List.getD_eq_getElem?_getD]
  rw [List.getElem?_append_left (by simp only [List.length_take]; omega)]
  rw [List.getElem?_take, if_pos hi]

theorem sliceAssign_getD_mid {α : Type} (dst : List α) (d l : Nat) (src : List α) (s : Nat)
    (d0 : α) (i : Nat) (hd : d + l ≤ dst.length) (hs : s + l ≤ src.length)
    (h1 : d ≤ i) (h2 : i < d + l) :
    (sliceAssign dst d l src s).getD i d0 = src.getD (s + (i - d)) d0 := by
  have hlt : (List.take d dst).length = d := by
    simp only [List.length_take]
    omega
  simp only [sliceAssign, List.getD_eq_getElem?_getD]
  rw [List.getElem?_append_right (by omega : (List.take d dst).length ≤ i), hlt]
  rw [List.getElem?_append_left (by
    simp only [List.length_take, List.length_drop]
    omega)]
  rw [List.getElem?_take, if_pos (by omega), List.getElem?_drop]

theorem sliceAssign_getD_ge {α : Type} (dst : List α) (d l : Nat) (src : List α) (s : Nat)
    (d0 : α) (i : Nat) (hd : d + l ≤ dst.length) (hs : s + l ≤ src.length)
    (h : d + l ≤ i) :
    (sliceAssign dst d l src s).getD i d0 = dst.getD i d0 := by
  have hlt : (List.take d dst).length = d := by
    simp only [List.length_take]
    omega
  have hlm : ((src.drop s).take l).length = l := by
    simp only [List.length_take, List.length_drop]
    omega
  simp only [sliceAssign, List.getD_eq_getElem?_getD]
  rw [List.getElem?_append_right (by omega : (List.take d dst).length ≤ i), hlt]
  rw [List.getElem?_append_right (by omega : ((src.drop s).take l).length ≤ i - d), hlm]
  rw [List.getElem?_drop]
  congr 2
  omega

theorem le_foldl_max : ∀ (l : List Nat) (init : Nat),
    init ≤ l.foldl Nat.max init ∧ ∀ x ∈ l, x ≤ l.foldl Nat.max init := by
  intro l
  induction l with
  | nil => exact fun init => ⟨Nat.le_refl init, by simp⟩
  | cons y ys ih =>
    intro init
    simp only [List.foldl_cons]
    obtain ⟨h1, h2⟩ := ih (Nat.max init y)
    refine ⟨Nat.le_trans (Nat.le_max_left init y) h1, ?_⟩
    intro x hx
    rcases List.mem_cons.mp hx with hx | hx
    · subst hx
      exact Nat.le_trans (Nat.le_max_right init x) h1
    · exact h2 x hx

theorem length_le_max_region_of (regions : List (Nat × Region)) (p : Nat × Region)
    (hp : p ∈ regions) : p.2.length ≤ max_region_of regions := by
  unfold max_region_of
  exact (le_foldl_max (regions.map (fun q => q.2.length)) 0).2 p.2.length
    (List.mem_map.mpr ⟨p, hp, rfl⟩)

theorem pad_foldl_spec (M : Nat) (logical : List Bool) (L : Nat) :
    ∀ (rl : List (Nat × Region)) (init : List Bool),
      init.length = L →
      (∀ p ∈ rl, p.1 * M + p.2.length ≤ L ∧ p.2.offset + p.2.length ≤ logical.length) →
      List.Pairwise (fun p q => p.1 ≠ q.1) rl →
      (∀ p ∈ rl, p.2.length ≤ M) →
      (List.foldl
          (fun padded p => sliceAssign padded (p.1 * M) p.2.length logical p.2.offset)
          init rl).length = L ∧
      (∀ a : Nat, (∀ p ∈ rl, ¬(p.1 * M ≤ a ∧ a < p.1 * M + p.2.length)) →
        (List.foldl
            (fun padded p => sliceAssign padded (p.1 * M) p.2.length logical p.2.offset)
            init rl).getD a false = init.getD a false) ∧
      (∀ p ∈ rl, ∀ i : Nat, i < p.2.length →
        (List.foldl
            (fun padded p => sliceAssign padded (p.1 * M) p.2.length logical p.2.offset)
            init rl).getD (p.1 * M + i) false = logical.getD (p.2.offset + i) false) := by
  intro rl
  induction rl with
  | nil =>
    intro init hlen _ _ _
    exact ⟨hlen, fun a _ => rfl, by simp⟩
  | cons p rest ih =>
    intro init hlen hbound hpw hmax
    have hp := hbound p (List.mem_cons_self p rest)
    have hd : p.1 * M + p.2.length ≤ init.length := by omega
    have hs : p.2.offset + p.2.length ≤ logical.length := hp.2
    have hlen1 : (sliceAssign init (p.1 * M) p.2.length logical p.2.offset).length = L := by
      rw [sliceAssign_length init _ _ logical _ hd hs, hlen]
    obtain ⟨hlenr, huntouched, hwritten⟩ := ih
      (sliceAssign init (p.1 * M) p.2.length logical p.2.offset)
      hlen1
      (fun q hq => hbound q (List.mem_cons_of_mem p hq))
      (List.pairwise_cons.mp hpw).2
      (fun q hq => hmax q (List.mem_cons_of_mem p hq))
    have hlanes : ∀ q ∈ rest, ∀ i : Nat, i < p.2.length →
        ¬(q.1 * M ≤ p.1 * M + i ∧ p.1 * M + i < q.1 * M + q.2.length) := by
      intro q hq i hi hcontra
      have hne : p.1 ≠ q.1 := (List.pairwise_cons.mp hpw).1 q hq
      have hqm := hmax q (List.mem_cons_of_mem p hq)
      have hpm := hmax p (List.mem_cons_self p rest)
      rcases Nat.lt_or_ge p.1 q.1 with hlt | hge
      · have hmul : (p.1 + 1) * M ≤ q.1 * M := Nat.mul_le_mul_right M hlt
        rw [Nat.succ_mul] at hmul
        omega
      · have hgt : q.1 < p.1 := by omega
        have hmul : (q.1 + 1) * M ≤ p.1 * M := Nat.mul_le_mul_right M hgt
        rw [Nat.succ_mul] at hmul
        omega
    simp only [List.foldl_cons]
    refine ⟨hlenr, ?_, ?_⟩
    · intro a ha
      rw [huntouched a (fun q hq => ha q (List.mem_cons_of_mem p hq))]
      have hap := ha p (List.mem_cons_self p rest)
      rcases Nat.lt_or_ge a (p.1 * M) with hlt | hge
      · exact sliceAssign_getD_lt init _ _ logical _ false a hlt (by omega)
      · have : p.1 * M + p.2.length ≤ a := by omega
        exact sliceAssign_getD_ge init _ _ logical _ false a hd hs this
    · intro q hq i hi
      rcases List.mem_cons.mp hq with hq | hq
      · subst hq
        rw [huntouched (q.1 * M + i) (fun r hr => hlanes r hr i hi)]
        rw [sliceAssign_getD_mid init _ _ logical _ false (q.1 * M + i) hd hs
          (by omega) (by omega)]
        congr 1
        omega
      · exact hwritten q hq i hi

/-- Claim C3: after packing, every region's physical lane head equals its
logical slice, and the lane tail up to the stride `maxLen` is zero.
Hypotheses are the database invariants: region ids are distinct and below
the region count, and each region's logical slice is inside the logical
array. -/
theorem padding_identity (db : Database) (logical : List Bool)
    (hids : List.Pairwise (fun p q => p.1 ≠ q.1) db.regions)
    (hrange : ∀ p ∈ db.regions, p.1 < db.regions.length)
    (hslice : ∀ p ∈ db.regions, p.2.offset + p.2.length ≤ logical.length) :
    ∀ p ∈ db.regions,
      (∀ i : Nat, i < p.2.length →
        (pad_bitstream db logical).getD (p.1 * max_region_of db.regions + i) false =
          logical.getD (p.2.offset + i) false) ∧
      (∀ i : Nat, p.2.length ≤ i → i < max_region_of db.regions →
        (pad_bitstream db logical).getD (p.1 * max_region_of db.regions + i) false =
          false) := by
  have hmax : ∀ p ∈ db.regions, p.2.length ≤ max_region_of db.regions :=
    fun p hp => length_le_max_region_of db.regions p hp
  have hbound : ∀ p ∈ db.regions,
      p.1 * max_region_of db.regions + p.2.length ≤
        max_region_of db.regions * db.regions.length ∧
      p.2.offset + p.2.length ≤ logical.length := by
    intro p hp
    refine ⟨?_, hslice p hp⟩
    have h1 := hrange p hp
    have h2 := hmax p hp
    have hmul : (p.1 + 1) * max_region_of db.regions ≤
        db.regions.length * max_region_of db.regions :=
      Nat.mul_le_mul_right _ h1
    rw [Nat.succ_mul, Nat.mul_comm db.regions.length (max_region_of db.regions)] at hmul
    omega
  obtain ⟨hlen, huntouched, hwritten⟩ := pad_foldl_spec (max_region_of db.regions) logical
    (max_region_of db.regions * db.regions.length) db.regions
    (List.replicate (max_region_of db.regions * db.regions.length) false)
    (List.length_replicate _ _) hbound hids hmax
  intro p hp
  constructor
  · intro i hi
    exact hwritten p hp i hi
  · intro i h1 h2
    have huntouched' : ∀ q ∈ db.regions,
        ¬(q.1 * max_region_of db.regions ≤ p.1 * max_region_of db.regions + i ∧
          p.1 * max_region_of db.regions + i <
            q.1 * max_region_of db.regions + q.2.length) := by
      intro q hq hcontra
      by_cases hpq : q = p
      · subst hpq
        omega
      · have hne : p.1 ≠ q.1 :=
          hids.forall (fun h1 h2 h => Ne.symm h) hp hq (fun h => hpq h.symm)
        have hqm := hmax q hq
        rcases Nat.lt_or_ge p.1 q.1 with hlt | hge
        · have hmul : (p.1 + 1) * max_region_of db.regions ≤
              q.1 * max_region_of db.regions :=
            Nat.mul_le_mul_right _ hlt
          rw [Nat.succ_mul] at hmul
          omega
        · have hgt : q.1 < p.1 := by omega
          have hmul : (q.1 + 1) * max_region_of db.regions ≤
              p.1 * max_region_of db.regions :=
            Nat.mul_le_mul_right _ hgt
          rw [Nat.succ_mul] at hmul
          omega
    have := huntouched (p.1 * max_region_of db.regions + i) huntouched'
    rw [pad_bitstream]
    rw [this]
    exact getD_replicate_false _ _

/-- A database used only for the padding witness: two regions of lengths
2 and 1. -/
def dbPad : Database :=
  { tiles := []
    routing := []
    segbits := []
    bitstream_size := 3
    regions := [(0, { offset := 0, length := 2 }), (1, { offset := 2, length := 1 })] }

theorem padding_identity_witness :
    (pad_bitstream dbPad [true, false, true]).getD
        (0 * max_region_of dbPad.regions + 1) false =
      [true, false, true].getD (0 + 1) false ∧
    (pad_bitstream dbPad [true, false, true]).getD
        (1 * max_region_of dbPad.regions + 1) false = false :=
  ⟨(padding_identity dbPad [true, false, true] (by decide) (by decide) (by decide)
      (0, { offset := 0, length := 2 }) (by decide)).1 1 (by decide),
   (padding_identity dbPad [true, false, true] (by decide) (by decide) (by decide)
      (1, { offset := 2, length := 1 }) (by decide)).2 1 (by decide) (by decide)⟩

/-! ### Claim C7: pattern matching -/

/-- Claim C7: with all pattern addresses in range, `match_segbits`
returns `some true` exactly when every bit of the pattern reads its
required value at `bit.idx + offset`, and the empty pattern always
matches. -/
theorem match_segbits_iff (bs : List Bool) (offset : Nat) (bits : SegbitPattern)
    (h : ∀ b ∈ bits, b.idx + offset < bs.length) :
    (match_segbits bs offset bits = some true ↔
      ∀ b ∈ bits, bs.getD (b.idx + offset) false = b.val) ∧
    match_segbits bs offset [] = some true := by
  refine ⟨?_, rfl⟩
  rw [match_segbits_eq bs offset bits h]
  constructor
  · intro he b hb
    have hm : pattern_matches bs bits offset = true := by
      injection he
    simp only [pattern_matches, List.all_eq_true, decide_eq_true_eq] at hm
    exact hm b hb
  · intro hall
    have hm : pattern_matches bs bits offset = true := by
      simp only [pattern_matches, List.all_eq_true, decide_eq_true_eq]
      exact hall
    rw [hm]

theorem match_segbits_iff_witness :
    (match_segbits [true, false] 0 [⟨0, true⟩, ⟨1, false⟩] = some true ↔
      ∀ b ∈ [(⟨0, true⟩ : Bit), ⟨1, false⟩],
        [true, false].getD (b.idx + 0) false = b.val) ∧
    match_segbits [true, false] 0 [] = some true :=
  match_segbits_iff [true, false] 0 [⟨0, true⟩, ⟨1, false⟩] (by decide)

/-! ### Claim C6: single-bit feature lookup -/

/-- Claim C6: the two-step single-bit lookup.  The bare base name is
tried exactly when the supplied index is absent or 0; on a miss (or a
nonzero index) the indexed key `"{base}[{idx}]"` is tried with the index
defaulting to 0; the lookup yields `none` — which the canonical-feature
loop turns into `LookupError` — exactly when every key it tries misses. -/
theorem single_bit_lookup (segbits : SegbitTable) (base : List Char) (start : Option Nat) :
    (∀ bits, (start = some 0 ∨ start = none) → alookup base segbits = some bits →
      lookup_feature_bits segbits base start = some (base, bits)) ∧
    ((¬(start = some 0 ∨ start = none) ∨ alookup base segbits = none) →
      lookup_feature_bits segbits base start =
        (alookup (base ++ '[' :: (natDigits (start.getD 0) ++ [']'])) segbits).map
          (fun bits => (base ++ '[' :: (natDigits (start.getD 0) ++ [']']), bits))) ∧
    (lookup_feature_bits segbits base start = none ↔
      ((start = some 0 ∨ start = none) → alookup base segbits = none) ∧
      alookup (base ++ '[' :: (natDigits (start.getD 0) ++ [']'])) segbits = none) ∧
    (∀ (off : Nat) (st : AssemblerState) (f : OneFeature), f.value = 1 →
      feature_base_name f = base → f.start = start →
      lookup_feature_bits segbits base start = none →
      process_one_feature segbits off st f = (st, some .lookupError)) := by
  refine ⟨?_, ?_, ?_, ?_⟩
  · intro bits hc hl
    simp only [lookup_feature_bits, if_pos hc, hl]
  · intro h
    rcases h with hc | hl
    · simp only [lookup_feature_bits, if_neg hc]
      cases alookup (base ++ '[' :: (natDigits (start.getD 0) ++ [']'])) segbits <;> rfl
    · by_cases hc : start = some 0 ∨ start = none
      · simp only [lookup_feature_bits, if_pos hc, hl]
        cases alookup (base ++ '[' :: (natDigits (start.getD 0) ++ [']'])) segbits <;> rfl
      · simp only [lookup_feature_bits, if_neg hc]
        cases alookup (base ++ '[' :: (natDigits (start.getD 0) ++ [']'])) segbits <;> rfl
  · by_cases hc : start = some 0 ∨ start = none
    · cases hl : alookup base segbits with
      | some bits =>
        simp only [lookup_feature_bits, if_pos hc, hl]
        constructor
        · intro he
          exact absurd he (by simp)
        · intro ⟨h1, _⟩
          exact absurd (h1 hc) (by simp [hl])
      | none =>
        simp only [lookup_feature_bits, if_pos hc, hl]
        cases hk : alookup (base ++ '[' :: (natDigits (start.getD 0) ++ [']'])) segbits <;>
          simp [hc, hl, hk]
    · simp only [lookup_feature_bits, if_neg hc]
      cases hk : alookup (base ++ '[' :: (natDigits (start.getD 0) ++ [']'])) segbits <;>
        simp [hc, hk]
  · intro off st f hv hb hs hl
    simp only [process_one_feature, hv]
    rw [if_neg (by simp), if_neg (by simp), hb, hs, hl]

theorem single_bit_lookup_witness :
    lookup_feature_bits [(strL "A", [⟨0, true⟩])] (strL "A") none =
      some (strL "A", [⟨0, true⟩]) :=
  (single_bit_lookup [(strL "A", [⟨0, true⟩])] (strL "A") none).1
    [⟨0, true⟩] (Or.inr rfl) (by decide)

/-! ### Claim C2: the conflict branch raises AttributeError, not
FeatureConflict -/

/-- Projection used to compare assembly outcomes (states contain a
function and are not decidably comparable). -/
def asmErrOf {α : Type} : Except AsmError α → Option AsmError
  | .error e => some e
  | .ok _ => none

/-- Two tiles of the same type at offsets 0 and 1 whose shared feature
`F` writes bit 0 with 1 and bit 1 with 0: assembling `F` at both
locations makes the same key `F` rewrite address 1 with a different
value. -/
def dbC2 : Database :=
  { tiles := [((0, 0), { type := strL "T", region := 0, offset := 0 }),
              ((1, 0), { type := strL "T", region := 0, offset := 1 })]
    routing := []
    segbits := [(strL "T", [(strL "F", [⟨0, true⟩, ⟨1, false⟩])])]
    bitstream_size := 3
    regions := [(0, { offset := 0, length := 3 })] }

/-- Claim C2: on the conflicting pair the assembler raises
`AttributeError` (the conflict branch evaluates `bit.id`, which `Bit`
does not have) instead of `FeatureConflict`; when the re-asserted values
agree, no error is raised. -/
theorem same_key_conflict_attribute_error :
    asmErrOf (assemble_bitstream dbC2
      [cert_line ⟨.tile, strL "T", 0, 0, strL "F"⟩,
       cert_line ⟨.tile, strL "T", 1, 0, strL "F"⟩]) = some .attributeError ∧
    asmErrOf (assemble_bitstream dbC2
      [cert_line ⟨.tile, strL "T", 0, 0, strL "F"⟩,
       cert_line ⟨.tile, strL "T", 0, 0, strL "F"⟩]) = none := by
  refine ⟨by decide, by decide⟩

/-! ### Claim C8: the `grid_` prefix stripping -/

/-- A database whose only segbit table is named `A` (there is no table
`grid_A`), with one tile of type `A` at (0,0). -/
def dbC8 : Database :=
  { tiles := [((0, 0), { type := strL "A", region := 0, offset := 0 })]
    routing := []
    segbits := [(strL "A", [(strL "F", [⟨0, true⟩])])]
    bitstream_size := 2
    regions := [(0, { offset := 0, length := 2 })] }

/-- Claim C8, counterexample: for the component identifier
`grid_grid_A`, the claim says the table name used is `grid_A` (only the
leading prefix removed) — that table does not exist in `dbC8`, so
resolution would fail; but `replace` removes both occurrences, the code
uses table `A`, and resolution succeeds. -/
theorem grid_replace_counterexample :
    alookup (strL "grid_A") dbC8.segbits = none ∧
    replaceGrid (strL "grid_grid_A") = strL "A" ∧
    (resolve_path dbC8 (strL "fpga_top.grid_grid_A_0__0_.F")).toOption =
      some ([(strL "F", [⟨0, true⟩])], 0) := by
  refine ⟨by decide, by decide, by decide⟩

/-- Claim C8 (amended): for a tile feature the segbit table name used for
lookup is the component identifier with *every* left-to-right,
non-overlapping occurrence of `grid_` removed (Python
`name.replace("grid_", "")`); in particular the leading prefix is
removed, and identifiers containing no further `grid_` are returned
unchanged. -/
theorem grid_replace_amended (db : Database) (f p1 : List Char)
    (rest : List (List Char)) (nm xs ys : List Char)
    (tile : Tile) (tbl : SegbitTable) (reg : Region)
    (hsplit : splitOnChar '.' f = fpgaTop :: p1 :: rest)
    (hrest : rest ≠ [])
    (hloc : locMatch p1 = some (nm, xs, ys))
    (hgrid : gridPat.isPrefixOf nm = true)
    (htile : alookup (digitsToNat xs, digitsToNat ys) db.tiles = some tile)
    (htbl : alookup (replaceGrid nm) db.segbits = some tbl)
    (hreg : alookup tile.region db.regions = some reg) :
    resolve_path db f = .ok (tbl, tile.offset + reg.offset) ∧
    (∀ t : List Char, replaceGrid (gridPat ++ t) = replaceGrid t) ∧
    (∀ t : List Char, noGridSub t = true → replaceGrid t = t) := by
  refine ⟨?_, replaceGrid_grid, replaceGrid_of_noGridSub⟩
  simp only [resolve_path, hsplit]
  rw [if_neg (by
    simp only [List.length_cons, List.headD_cons, not_or]
    constructor
    · have : 0 < rest.length := List.length_pos.mpr hrest
      omega
    · simp)]
  have hgd : (fpgaTop :: p1 :: rest).getD 1 [] = p1 := rfl
  simp only [hgd, hloc]
  rw [if_pos hgrid]
  simp only [htile, htbl, hreg]

theorem grid_replace_amended_witness :
    resolve_path dbC8 (strL "fpga_top.grid_grid_A_0__0_.F") =
      .ok ([(strL "F", [⟨0, true⟩])], 0) ∧
    (∀ t : List Char, replaceGrid (gridPat ++ t) = replaceGrid t) ∧
    (∀ t : List Char, noGridSub t = true → replaceGrid t = t) :=
  grid_replace_amended dbC8 (strL "fpga_top.grid_grid_A_0__0_.F")
    (strL "grid_grid_A_0__0_") [strL "F"] (strL "grid_grid_A") (strL "0") (strL "0")
    { type := strL "A", region := 0, offset := 0 } [(strL "F", [⟨0, true⟩])]
    { offset := 0, length := 2 }
    (by decide) (by decide) (by decide) (by decide) (by decide) (by decide) (by decide)

/-! ### Claim C9: provenance keys are table-local base names -/

/-- Claim C9: (a) the base feature name is the dot-joined path segments
after the first two, so two statements whose paths agree after the
location segment get the same base name regardless of location; (b) the
key a lookup resolves is that base name, possibly with an `[index]`
suffix; (c) applying a bit records the key in the address's provenance
set; (d) the conflict branch fires precisely on key membership in that
set (together with a differing value), so statements at different grid
locations sharing a base feature name are treated as the same
contributing feature key. -/
theorem provenance_key_scope :
    (∀ f1 f2 : OneFeature,
      (splitOnChar '.' f1.feature).drop 2 = (splitOnChar '.' f2.feature).drop 2 →
      feature_base_name f1 = feature_base_name f2) ∧
    (∀ (segbits : SegbitTable) (base : List Char) (start : Option Nat)
        (key : List Char) (bits : SegbitPattern),
      lookup_feature_bits segbits base start = some (key, bits) →
      key = base ∨ key = base ++ '[' :: (natDigits (start.getD 0) ++ [']'])) ∧
    (∀ (st : AssemblerState) (key : List Char) (offset : Nat) (b : Bit),
      ¬(key ∈ st.features_by_bits (b.idx + offset) ∧
        b.val ≠ st.bitstream.getD (b.idx + offset) false) →
      (apply_bit key offset st b).1.features_by_bits (b.idx + offset) =
        key :: st.features_by_bits (b.idx + offset)) ∧
    (∀ (st : AssemblerState) (key : List Char) (offset : Nat) (b : Bit),
      key ∈ st.features_by_bits (b.idx + offset) →
      b.val ≠ st.bitstream.getD (b.idx + offset) false →
      (apply_bit key offset st b).2 = some .attributeError) := by
  refine ⟨?_, ?_, ?_, ?_⟩
  · intro f1 f2 h
    simp only [feature_base_name, h]
  · intro segbits base start key bits h
    simp only [lookup_feature_bits] at h
    by_cases hc : start = some 0 ∨ start = none
    · rw [if_pos hc] at h
      cases hl : alookup base segbits with
      | some bits0 =>
        rw [hl] at h
        simp only at h
        injection h with h1
        left
        exact (congrArg Prod.fst h1).symm
      | none =>
        rw [hl] at h
        simp only at h
        cases hk : alookup (base ++ '[' :: (natDigits (start.getD 0) ++ [']'])) segbits with
        | some bits1 =>
          rw [hk] at h
          injection h with h1
          right
          exact (congrArg Prod.fst h1).symm
        | none => rw [hk] at h; cases h
    · rw [if_neg hc] at h
      simp only at h
      cases hk : alookup (base ++ '[' :: (natDigits (start.getD 0) ++ [']'])) segbits with
      | some bits1 =>
        rw [hk] at h
        injection h with h1
        right
        exact (congrArg Prod.fst h1).symm
      | none => rw [hk] at h; cases h
  · intro st key offset b h
    rw [apply_bit_write key offset st b h]
    simp
  · intro st key offset b hmem hval
    rw [apply_bit_conflict key offset st b hmem hval]

theorem provenance_key_scope_witness :
    (apply_bit (strL "F")
      0
      { bitstream := [false]
        features_by_bits := fun a => if a = 0 then [strL "F"] else [] }
      ⟨0, true⟩).2 = some .attributeError :=
  provenance_key_scope.2.2.2
    { bitstream := [false]
      features_by_bits := fun a => if a = 0 then [strL "F"] else [] }
    (strL "F") 0 ⟨0, true⟩ (by decide) (by decide)

/-! ### Claim C10: statement processing is not atomic on lookup failure -/

/-- Claim C10: when a statement's canonical expansion applies a first
single-bit feature and a later one fails to resolve, the whole statement
raises `LookupError` (and is collected by `assemble_bitstream`), but the
bits already written stay in the bit array and the first feature's key
stays in the provenance map: processing continues from the mutated
state. -/
theorem statement_not_atomic (db : Database) (st : AssemblerState)
    (rest unk : List FasmLine) (sf : SetFeature) (tbl : SegbitTable) (off : Nat)
    (f1 f2 : OneFeature) (k1 : List Char) (bits1 : SegbitPattern)
    (hv : ¬sf.value = 0)
    (hres : resolve_path db sf.feature = .ok (tbl, off))
    (hcan : sf.canonical = [f1, f2])
    (hv1 : f1.value = 1) (hv2 : f2.value = 1)
    (hl1 : lookup_feature_bits tbl (feature_base_name f1) f1.start = some (k1, bits1))
    (hl2 : lookup_feature_bits tbl (feature_base_name f2) f2.start = none)
    (hnodup : (bits1.map Bit.idx).Nodup)
    (hbound : ∀ b ∈ bits1, b.idx + off < st.bitstream.length)
    (hfresh : ∀ b ∈ bits1, k1 ∉ st.features_by_bits (b.idx + off)) :
    ∃ st1, process_fasm_line db st ⟨some sf⟩ = (st1, some .lookupError) ∧
      (∀ b ∈ bits1, st1.bitstream.getD (b.idx + off) false = b.val ∧
        k1 ∈ st1.features_by_bits (b.idx + off)) ∧
      assemble_loop db (⟨some sf⟩ :: rest) st unk =
        assemble_loop db rest st1 (unk ++ [⟨some sf⟩]) := by
  obtain ⟨st1, happly, hlen1, hunt, hwrit⟩ :=
    apply_bits_spec k1 off bits1 st hnodup hbound hfresh
  have hproc : process_fasm_line db st ⟨some sf⟩ = (st1, some .lookupError) := by
    simp only [process_fasm_line]
    rw [if_neg hv]
    simp only [hres, hcan, process_features, process_one_feature, hv1, hv2, hl1, hl2]
    rw [if_neg (by simp), if_neg (by simp)]
    simp only [happly, process_features, process_one_feature, hv2, hl2]
    rw [if_neg (by simp), if_neg (by simp)]
  refine ⟨st1, hproc, ?_, ?_⟩
  · intro b hb
    obtain ⟨h1, h2⟩ := hwrit b hb
    exact ⟨h1, by rw [h2]; exact List.mem_cons_self k1 _⟩
  · simp only [assemble_loop, hproc]

/-- Database and statement for the C10 witness: table `T` holds only
`M[0]`, so the canonical expansion `M[0]=1, M[1]=1` of a 2-bit statement
applies its first bit and then fails on `M[1]`. -/
def dbC10 : Database :=
  { tiles := [((0, 0), { type := strL "T", region := 0, offset := 0 })]
    routing := []
    segbits := [(strL "T", [(strL "M[0]", [⟨0, true⟩])])]
    bitstream_size := 2
    regions := [(0, { offset := 0, length := 2 })] }

def sfC10 : SetFeature :=
  { feature := strL "fpga_top.grid_T_0__0_.M"
    value := 3
    canonical :=
      [{ feature := strL "fpga_top.grid_T_0__0_.M", start := some 0, value := 1 },
       { feature := strL "fpga_top.grid_T_0__0_.M", start := some 1, value := 1 }] }

theorem statement_not_atomic_witness :
    ∃ st1, process_fasm_line dbC10 (init_state dbC10) ⟨some sfC10⟩ =
        (st1, some .lookupError) ∧
      (∀ b ∈ [(⟨0, true⟩ : Bit)],
        st1.bitstream.getD (b.idx + 0) false = b.val ∧
        strL "M[0]" ∈ st1.features_by_bits (b.idx + 0)) ∧
      assemble_loop dbC10 (⟨some sfC10⟩ :: []) (init_state dbC10) [] =
        assemble_loop dbC10 [] st1 ([] ++ [⟨some sfC10⟩]) :=
  statement_not_atomic dbC10 (init_state dbC10) [] [] sfC10
    [(strL "M[0]", [⟨0, true⟩])] 0
    { feature := strL "fpga_top.grid_T_0__0_.M", start := some 0, value := 1 }
    { feature := strL "fpga_top.grid_T_0__0_.M", start := some 1, value := 1 }
    (strL "M[0]") [⟨0, true⟩]
    (by decide) rfl rfl rfl rfl (by decide) (by decide) (by decide) (by decide) (by decide)

/-! ### Claim C5: unresolved statements are collected, not raised -/

theorem assemble_loop_acc_sub (db : Database) :
    ∀ (lines : List FasmLine) (st : AssemblerState) (acc : List FasmLine)
      (st2 : AssemblerState) (u2 : List FasmLine),
      assemble_loop db lines st acc = .ok (st2, u2) → ∀ l ∈ acc, l ∈ u2 := by
  intro lines
  induction lines with
  | nil =>
    intro st acc st2 u2 h l hl
    simp only [assemble_loop] at h
    injection h with h1
    have h2 : acc = u2 := congrArg Prod.snd h1
    rw [← h2]
    exact hl
  | cons line rest ih =>
    intro st acc st2 u2 h l hl
    simp only [assemble_loop] at h
    cases hp : process_fasm_line db st line with
    | mk st' e =>
      rw [hp] at h
      match e with
      | none => exact ih st' acc st2 u2 h l hl
      | some .lookupError =>
        exact ih st' (acc ++ [line]) st2 u2 h l (List.mem_append_left _ hl)
      | some .featureConflict => cases h
      | some .attributeError => cases h
      | some .assertionError => cases h
      | some .keyError => cases h

/-- Claim C5: a statement whose path fails any of the checks —
fewer than three dot-separated segments or a first segment other than
`fpga_top`; a second segment without the `_<x>__<y>_` suffix; an unknown
tile location or tile segbit table; an unknown routing location, resource
type or routing segbit table; or a canonical feature name that resolves
in neither form — makes `process_fasm_line` raise `LookupError` without
touching the state, and `assemble_bitstream`'s loop collects the line
and continues with the remaining statements (the line ends up among the
returned unknown features). -/
theorem unknown_path_collected (db : Database) (st : AssemblerState)
    (rest unk : List FasmLine) (sf : SetFeature)
    (hv : ¬sf.value = 0)
    (hD :
      ((splitOnChar '.' sf.feature).length < 3 ∨
        (splitOnChar '.' sf.feature).headD [] ≠ fpgaTop) ∨
      locMatch ((splitOnChar '.' sf.feature).getD 1 []) = none ∨
      (∃ nm xs ys, locMatch ((splitOnChar '.' sf.feature).getD 1 []) = some (nm, xs, ys) ∧
        gridPat.isPrefixOf nm = true ∧
        (alookup (digitsToNat xs, digitsToNat ys) db.tiles = none ∨
         alookup (replaceGrid nm) db.segbits = none)) ∨
      (∃ nm xs ys, locMatch ((splitOnChar '.' sf.feature).getD 1 []) = some (nm, xs, ys) ∧
        gridPat.isPrefixOf nm = false ∧
        (alookup (digitsToNat xs, digitsToNat ys) db.routing = none ∨
         (∃ rmap, alookup (digitsToNat xs, digitsToNat ys) db.routing = some rmap ∧
           alookup (nm.takeWhile (fun c => c ≠ '_')) rmap = none) ∨
         (∃ rmap sbox, alookup (digitsToNat xs, digitsToNat ys) db.routing = some rmap ∧
           alookup (nm.takeWhile (fun c => c ≠ '_')) rmap = some sbox ∧
           alookup (nm.takeWhile (fun c => c ≠ '_') ++ '_' :: sbox.variant)
             db.segbits = none))) ∨
      (∃ tbl off f, resolve_path db sf.feature = .ok (tbl, off) ∧
        sf.canonical = [f] ∧ f.value = 1 ∧
        lookup_feature_bits tbl (feature_base_name f) f.start = none)) :
    process_fasm_line db st ⟨some sf⟩ = (st, some .lookupError) ∧
    assemble_loop db (⟨some sf⟩ :: rest) st unk =
      assemble_loop db rest st (unk ++ [⟨some sf⟩]) ∧
    (∀ st2 u2, assemble_loop db (⟨some sf⟩ :: rest) st unk = .ok (st2, u2) →
      (⟨some sf⟩ : FasmLine) ∈ u2) := by
  have hproc : process_fasm_line db st ⟨some sf⟩ = (st, some .lookupError) := by
    simp only [process_fasm_line]
    rw [if_neg hv]
    by_cases hD1 : (splitOnChar '.' sf.feature).length < 3 ∨
        (splitOnChar '.' sf.feature).headD [] ≠ fpgaTop
    · simp only [resolve_path, if_pos hD1]
    · rcases hD with hD | hD2 | hD3 | hD4 | hD5
      · exact absurd hD hD1
      · simp only [resolve_path, if_neg hD1, hD2]
      · obtain ⟨nm, xs, ys, hlm, hg, hor⟩ := hD3
        simp only [resolve_path, if_neg hD1, hlm]
        rw [if_pos hg]
        rcases hor with h | h
        · simp only [h]
        · cases ht : alookup (digitsToNat xs, digitsToNat ys) db.tiles with
          | none => simp only [ht]
          | some tile => simp only [ht, h]
      · obtain ⟨nm, xs, ys, hlm, hg, hor⟩ := hD4
        simp only [resolve_path, if_neg hD1, hlm]
        rw [if_neg (by rw [hg]; simp)]
        rcases hor with h | ⟨rmap, hr, h⟩ | ⟨rmap, sbox, hr, hs, h⟩
        · simp only [h]
        · simp only [hr, h]
        · simp only [hr, hs, h]
      · obtain ⟨tbl, off, f, hres, hcan, hv1, hl⟩ := hD5
        simp only [hres, hcan, process_features, process_one_feature, hv1, hl]
        rw [if_neg (by simp), if_neg (by simp)]
  refine ⟨hproc, ?_, ?_⟩
  · simp only [assemble_loop, hproc]
  · intro st2 u2 h
    simp only [assemble_loop, hproc] at h
    exact assemble_loop_acc_sub db rest st (unk ++ [⟨some sf⟩]) st2 u2 h _
      (List.mem_append_right unk (List.mem_cons_self _ []))

theorem unknown_path_collected_witness :
    process_fasm_line db2 (init_state db2)
        ⟨some { feature := strL "not_fpga.x.y", value := 1, canonical := [] }⟩ =
      (init_state db2, some .lookupError) ∧
    assemble_loop db2
        (⟨some { feature := strL "not_fpga.x.y", value := 1, canonical := [] }⟩ :: [])
        (init_state db2) [] =
      assemble_loop db2 [] (init_state db2)
        ([] ++ [⟨some { feature := strL "not_fpga.x.y", value := 1, canonical := [] }⟩]) ∧
    (∀ st2 u2, assemble_loop db2
        (⟨some { feature := strL "not_fpga.x.y", value := 1, canonical := [] }⟩ :: [])
        (init_state db2) [] = .ok (st2, u2) →
      (⟨some { feature := strL "not_fpga.x.y", value := 1, canonical := [] }⟩ :
        FasmLine) ∈ u2) :=
  unknown_path_collected db2 (init_state db2) [] []
    { feature := strL "not_fpga.x.y", value := 1, canonical := [] }
    (by decide) (Or.inl (Or.inr (by decide)))

/-! ### Claim C4: cross-key overwrite -/

/-- Claim C4: two canonical statements with different feature keys whose
patterns write a common address with different values are both applied
without any error; the final bit at the shared address is the value
written by the later statement. -/
theorem cross_key_overwrite (db : Database) (c1 c2 : Cert)
    (h1 : cert_ok db c1 = true) (h2 : cert_ok db c2 = true)
    (hkey : c1.key ≠ c2.key) (b1 b2 : Bit) (A : Nat)
    (hb1 : b1 ∈ cert_bits db c1) (hb2 : b2 ∈ cert_bits db c2)
    (hA1 : b1.idx + cert_offset db c1 = A) (hA2 : b2.idx + cert_offset db c2 = A)
    (hval : b1.val ≠ b2.val) :
    ∃ st, assemble_bitstream db [cert_line c1, cert_line c2] = .ok (st, []) ∧
      st.bitstream.getD A false = b2.val := by
  obtain ⟨st1, happly1, hlen1, hunt1, hwrit1⟩ :=
    apply_bits_spec c1.key (cert_offset db c1) (cert_bits db c1) (init_state db)
      (cert_ok_nodup db c1 h1)
      (by
        intro b hb
        simp only [init_state, List.length_replicate]
        exact cert_ok_bounds db c1 h1 b hb)
      (fun b hb => List.not_mem_nil c1.key)
  obtain ⟨st2, happly2, hlen2, hunt2, hwrit2⟩ :=
    apply_bits_spec c2.key (cert_offset db c2) (cert_bits db c2) st1
      (cert_ok_nodup db c2 h2)
      (by
        intro b hb
        rw [hlen1]
        simp only [init_state, List.length_replicate]
        exact cert_ok_bounds db c2 h2 b hb)
      (by
        intro b hb
        by_cases hmem : b.idx + cert_offset db c2 ∈ cert_addrs db c1
        · obtain ⟨b', hb', heq⟩ := List.mem_map.mp hmem
          have := (hwrit1 b' hb').2
          rw [heq] at this
          rw [this]
          intro hc
          rcases List.mem_cons.mp hc with hc | hc
          · exact hkey hc.symm
          · simp only [init_state] at hc
            exact absurd hc (List.not_mem_nil c2.key)
        · have := (hunt1 (b.idx + cert_offset db c2) (by
            intro b' hb' heq
            exact hmem (List.mem_map.mpr ⟨b', hb', heq⟩))).2
          rw [this]
          simp only [init_state]
          exact List.not_mem_nil c2.key)
  have hproc1 : process_fasm_line db (init_state db) (cert_line c1) = (st1, none) := by
    rw [process_fasm_line_cert db c1 (init_state db) h1]
    exact happly1
  have hproc2 : process_fasm_line db st1 (cert_line c2) = (st2, none) := by
    rw [process_fasm_line_cert db c2 st1 h2]
    exact happly2
  refine ⟨st2, ?_, ?_⟩
  · simp only [assemble_bitstream, assemble_loop, hproc1, hproc2]
  · have := (hwrit2 b2 hb2).1
    rw [hA2] at this
    exact this

/-- Database for the C4 witness: features `F0` (writes bit 0 with 1) and
`G` (writes bit 0 with 0) under different keys in the same table. -/
def dbC4 : Database :=
  { tiles := [((0, 0), { type := strL "T", region := 0, offset := 0 })]
    routing := []
    segbits := [(strL "T", [(strL "F0", [⟨0, true⟩]), (strL "G", [⟨0, false⟩])])]
    bitstream_size := 2
    regions := [(0, { offset := 0, length := 2 })] }

theorem cross_key_overwrite_witness :
    ∃ st, assemble_bitstream dbC4
        [cert_line ⟨.tile, strL "T", 0, 0, strL "F0"⟩,
         cert_line ⟨.tile, strL "T", 0, 0, strL "G"⟩] = .ok (st, []) ∧
      st.bitstream.getD 0 false = (⟨0, false⟩ : Bit).val :=
  cross_key_overwrite dbC4 ⟨.tile, strL "T", 0, 0, strL "F0"⟩
    ⟨.tile, strL "T", 0, 0, strL "G"⟩ (by decide) (by decide) (by decide)
    ⟨0, true⟩ ⟨0, false⟩ 0 (by decide) (by decide) (by decide) (by decide) (by decide)
